import Mathlib

/-!
Verification development for the form-data-parser repository.

The repository has two algorithmic modules:
* `src/utils/formUtils.ts` — the flat-key structure builder
  (`processFormData`, `processFieldGroups`, `setNestedValue`,
  `normalizeStructure`, `convertToArray`, `isEmptyValue`, `isNumericKey`);
* `src/utils/data.ts` — the path accessors
  (`parsePath`, `createNestedStructure`, `getValue`, `setValue`,
  `hasValue`, `deleteValue`, `createFromPath`).

Both are shallowly embedded below.  JavaScript objects are modelled as
association lists kept in JavaScript enumeration order (canonical
array-index keys first, ascending, then string keys in insertion order);
JavaScript arrays are modelled as a list of optional slots (a `none` slot
is a hole) together with the list of non-index string properties that
bracket assignment can attach to an array.  `File` values carry the list
of own enumerable properties (empty for a fresh upload, which is why
`Object.keys(file)` is empty and `normalizeStructure` rebuilds a file as
`{}`).  Machine numbers produced by `parseInt` are modelled as exact
integers (`Option Int`, `none` standing for `NaN`); double rounding on
astronomically long digit strings is not modelled and no theorem below
depends on it.
-/

set_option autoImplicit false

namespace FormDataParser

/-! ## JavaScript numeric-string primitives -/

/-- The whitespace characters skipped by `parseInt`. -/
def isJsSpace (c : Char) : Bool :=
  c == ' ' || c == '\t' || c == '\n' || c == '\r' || c == '\x0b' || c == '\x0c'

def digitVal (c : Char) : Nat := c.toNat - '0'.toNat

/-- Value of a maximal leading run of decimal digits; `none` if there is none. -/
def decDigits (cs : List Char) : Option Nat :=
  let ds := cs.takeWhile Char.isDigit
  if ds.isEmpty then none
  else some (ds.foldl (fun a c => a * 10 + digitVal c) 0)

def isHexDigitChar (c : Char) : Bool :=
  c.isDigit || ('a' ≤ c.toLower && c.toLower ≤ 'f')

def hexDigitVal (c : Char) : Nat :=
  if c.isDigit then digitVal c else c.toLower.toNat - 'a'.toNat + 10

/-- Value of a maximal leading run of hexadecimal digits; `none` if there is none. -/
def hexDigits (cs : List Char) : Option Nat :=
  let ds := cs.takeWhile isHexDigitChar
  if ds.isEmpty then none
  else some (ds.foldl (fun a c => a * 16 + hexDigitVal c) 0)

/-- The unsigned part of `parseInt`: a `0x`/`0X` prefix switches to base
16, otherwise the longest decimal-digit prefix is parsed. -/
def parseUnsigned (cs : List Char) : Option Nat :=
  match cs with
  | c0 :: c1 :: r =>
      if c0 == '0' && (c1 == 'x' || c1 == 'X') then hexDigits r
      else decDigits cs
  | _ => decDigits cs

/-- JavaScript `parseInt(s)` (radix argument omitted, as everywhere in the
source): skip whitespace, optional sign, `0x`/`0X` switches to base 16,
parse the longest digit prefix, `NaN` (= `none`) when no digit is found. -/
def jsParseInt (s : String) : Option Int :=
  match s.toList.dropWhile isJsSpace with
  | [] => none
  | c0 :: rest =>
      if c0 == '-' then (parseUnsigned rest).map (fun n => -(n : Int))
      else if c0 == '+' then (parseUnsigned rest).map (fun n => (n : Int))
      else (parseUnsigned (c0 :: rest)).map (fun n => (n : Int))

/-- `some n` iff the string is the canonical decimal form of an ECMAScript
array index `n` (`0 ≤ n < 2^32 - 1`): these are the keys that address array
slots and that are enumerated first, in ascending order, on any object. -/
def canonIdx (s : String) : Option Nat :=
  let cs := s.toList
  if cs.isEmpty then none
  else if cs.all Char.isDigit then
    if s == "0" || cs.head? != some '0' then
      let n := cs.foldl (fun a c => a * 10 + digitVal c) 0
      if n < 4294967295 then some n else none
    else none
  else none

/-! ## The value tree -/

/-- A JavaScript value as it occurs in this codebase: a string, `null`, a
`File` (with its own enumerable properties — empty for a fresh upload), a
plain object, or an array (slots, which may be holes, plus any non-index
string properties assigned onto the array object). -/
inductive JValue : Type where
  | vStr : String → JValue
  | vNull : JValue
  | vFile : String → List (String × JValue) → JValue
  | obj : List (String × JValue) → JValue
  | arr : List (Option JValue) → List (String × JValue) → JValue

/-! ## Object / record operations (JS property semantics) -/

/-- Own-property lookup in an association list.  Inherited
`Object.prototype` members (function-valued properties and the
`__proto__` accessor) are not values of this embedding; the sites where
they matter are handled explicitly (`containerSet`'s `__proto__`
interception, `groupEntriesAux`'s `protoProps` guard, `jsResultAssign`). -/
def jsRecLookup {α : Type} : List (String × α) → String → Option α
  | [], _ => none
  | (k', v) :: rest, k => if k' = k then some v else jsRecLookup rest k

/-- Overwrite the value of an existing key, keeping its position
(JS property update does not move the property). -/
def jsRecReplace {α : Type} : List (String × α) → String → α → List (String × α)
  | [], _, _ => []
  | (k', v') :: rest, k, v =>
      if k' = k then (k', v) :: rest else (k', v') :: jsRecReplace rest k v

/-- Insert a fresh canonical-index key `k` (value `n`) at its JS enumeration
position: after the smaller indices of the integer section, before
everything else. -/
def jsRecInsertIdx {α : Type} : List (String × α) → Nat → String → α → List (String × α)
  | [], _, k, v => [(k, v)]
  | (k', v') :: rest, n, k, v =>
      match canonIdx k' with
      | some m =>
          if m < n then (k', v') :: jsRecInsertIdx rest n k v
          else (k, v) :: (k', v') :: rest
      | none => (k, v) :: (k', v') :: rest

/-- Own-property assignment `o[k] = v` on a plain record: update in place
if the key exists, otherwise insert at the JS enumeration position
(integer section for canonical array-index keys, else append).  The
interception of an assignment to `__proto__` by the inherited accessor is
layered on top in `containerSet`/`containerSetE` (property writes) and
`jsResultAssign` (the result merge); at the remaining direct call sites —
spread copying, which uses define-semantics and does create own
`__proto__` keys, and the group maps of `processFieldGroups`, whose keys
collide with an inherited member only on inputs where `groupEntries` has
already thrown — plain own-insertion is the source's behaviour. -/
def jsRecSet {α : Type} (fs : List (String × α)) (k : String) (v : α) : List (String × α) :=
  if (jsRecLookup fs k).isSome then jsRecReplace fs k v
  else
    match canonIdx k with
    | some n => jsRecInsertIdx fs n k v
    | none => fs ++ [(k, v)]

/-- `a[n] = v` on an array: set the slot, padding with holes when writing
past the end (JS extends `length` to `n + 1`). -/
def writeSlot (slots : List (Option JValue)) (n : Nat) (v : JValue) : List (Option JValue) :=
  if n < slots.length then slots.set n (some v)
  else slots ++ List.replicate (n - slots.length) none ++ [some v]

/-- `a.length = m`: truncate, or extend with holes. -/
def setLength (slots : List (Option JValue)) (m : Nat) : List (Option JValue) :=
  if m ≤ slots.length then slots.take m
  else slots ++ List.replicate (m - slots.length) none

/-- `typeof v === 'object' && v !== null`: true for objects, arrays, files. -/
def objLike : JValue → Bool
  | .vFile _ _ => true
  | .obj _ => true
  | .arr _ _ => true
  | _ => false

/-- JS truthiness for the values of this codebase (`filter(Boolean)`):
`null` and the empty string are falsy, every object is truthy. -/
def jsTruthy : JValue → Bool
  | .vStr s => s != ""
  | .vNull => false
  | _ => true

/-- Property read `c[k]` on a container, with array-index resolution:
a canonical index key addresses a slot (a hole reads as `undefined`),
any other key is an own property.  A key with no own property reads as
`undefined` here, whereas the engine would surface an inherited
`Object.prototype` member (a function, or the `__proto__` accessor's
result) — values outside this embedding; accordingly, the theorems below
either read only keys the walk has just written or exclude `__proto__`
segments by hypothesis. -/
def containerGet (c : JValue) (k : String) : Option JValue :=
  match c with
  | .obj fs => jsRecLookup fs k
  | .vFile _ ps => jsRecLookup ps k
  | .arr slots props =>
      match canonIdx k with
      | some n => (slots[n]?).bind id
      | none => jsRecLookup props k
  | _ => none

/-- Property write `c[k] = v` on a container (the only call sites are
guarded by `typeof c === 'object'`, so the primitive branch is inert).
An assignment to `__proto__` with no own property of that name goes to
the inherited accessor and stores nothing own, so the container's own
properties are returned unchanged (a mid-walk assignee the accessor
produces is unreachable through own-property reads, hence dropped).
This is the total write: the two throwing assignments — `length` on an
array and a getter-only `File` property — are modelled by
`containerSetE` below and are unreachable at this function's call sites
(`createNestedStructure`'s fresh chains only address arrays by their
numeric segment, and the formUtils assembly is used under the Claim-9
exclusions of `length` parts and `File` values at path-bearing keys). -/
def containerSet (c : JValue) (k : String) (v : JValue) : JValue :=
  match c with
  | .obj fs =>
      if k == "__proto__" && (jsRecLookup fs k).isNone then .obj fs
      else .obj (jsRecSet fs k v)
  | .vFile nm ps =>
      if k == "__proto__" && (jsRecLookup ps k).isNone then .vFile nm ps
      else .vFile nm (jsRecSet ps k v)
  | .arr slots props =>
      match canonIdx k with
      | some n => .arr (writeSlot slots n v) props
      | none =>
          if k == "__proto__" && (jsRecLookup props k).isNone then
            .arr slots props
          else .arr slots (jsRecSet props k v)
  | other => other

/-! ## formUtils.ts — the structure builder -/

/-- JS `String.prototype.trim` (restricted to the ASCII whitespace the
inputs here contain). -/
def jsTrim (s : String) : String :=
  String.mk (((s.toList.dropWhile isJsSpace).reverse.dropWhile isJsSpace).reverse)

/-- `isEmptyValue`: only a string that trims to nothing is empty. -/
def isEmptyValue : JValue → Bool
  | .vStr s => jsTrim s == ""
  | _ => false

/-- `isNumericKey(key)`: `!isNaN(parseInt(key))`. -/
def isNumericKey (k : String) : Bool :=
  (jsParseInt k).isSome

/-- Comparator value used by `convertToArray`'s
`sort((a, b) => parseInt(a) - parseInt(b))`; a `NaN` result is treated as 0
(ties keep their enumeration order under a stable sort). -/
def jsCmpKeys (a b : String) : Int :=
  match jsParseInt a, jsParseInt b with
  | some x, some y => x - y
  | _, _ => 0

/-- Stable insertion of a key into an already sorted key list: the new key
goes after every key that compares less-or-equal. -/
def insertKeyStable (x : String) : List String → List String
  | [] => [x]
  | e :: es =>
      if jsCmpKeys e x ≤ 0 then e :: insertKeyStable x es
      else x :: e :: es

/-- Stable sort of an object's key list by the `parseInt` comparator
(the engine's sort is stable, so any stable sort agrees with it for the
consistent comparators that arise here). -/
def sortKeysByParseInt (ks : List String) : List String :=
  ks.foldl (fun acc k => insertKeyStable k acc) []

/-- One write `array[parseInt(key)] = fsN[key]` of `convertToArray`'s
loop: a write at a non-index position (negative, or at least `2^32 - 1`)
lands in an invisible string property of the scratch array and is
dropped by the final compaction, so it is a no-op here. -/
def convertWriteStep (fsN : List (String × JValue))
    (a : List (Option JValue)) (k : String) : List (Option JValue) :=
  match jsParseInt k with
  | some n =>
      if 0 ≤ n ∧ n < 4294967295 then
        match jsRecLookup fsN k with
        | some v => writeSlot a n.toNat v
        | none => a
      else a
  | none => a

/-- The write-and-compact core of `convertToArray`, applied to fields whose
values have already been normalized: sort the keys with the `parseInt`
comparator, write each value at slot `parseInt(key)` of a fresh array,
then `filter(v => v !== undefined)` compacts the occupied slots in
ascending order. -/
def convertToArrayCore (fsN : List (String × JValue)) : List JValue :=
  (((sortKeysByParseInt (fsN.map Prod.fst)).foldl (convertWriteStep fsN)
    ([] : List (Option JValue))).filterMap id)

mutual

/-- `normalizeStructure`: primitives pass through; an array maps
`normalizeStructure` over its elements and drops falsy results with
`filter(Boolean)` (losing holes, `null`s, empty strings, and any string
properties of the array); an object (or a `File`, whose own enumerable
properties play the role of its fields) becomes an array when it has at
least one key and every key is numeric, and otherwise is rebuilt
field-by-field. -/
def normalizeStructure : JValue → JValue
  | .vStr s => .vStr s
  | .vNull => .vNull
  | .vFile _ ps =>
      if ps.length != 0 && ps.all (fun kv => isNumericKey kv.1) then
        .arr ((convertToArrayCore (normalizePairs ps)).map some) []
      else .obj (normalizePairs ps)
  | .obj fs =>
      if fs.length != 0 && fs.all (fun kv => isNumericKey kv.1) then
        .arr ((convertToArrayCore (normalizePairs fs)).map some) []
      else .obj (normalizePairs fs)
  | .arr slots _ => .arr (normalizeSlots slots) []

/-- `item.map(normalizeStructure).filter(Boolean)` over array slots. -/
def normalizeSlots : List (Option JValue) → List (Option JValue)
  | [] => []
  | none :: rest => normalizeSlots rest
  | some v :: rest =>
      let n := normalizeStructure v
      if jsTruthy n then some n :: normalizeSlots rest else normalizeSlots rest

/-- Normalize every value of an object's field list, keeping keys and
their order (`normalizeStructure` never returns `undefined` on a present
value, so the `!== undefined` guard of the source never drops a field). -/
def normalizePairs : List (String × JValue) → List (String × JValue)
  | [] => []
  | (k, v) :: rest => (k, normalizeStructure v) :: normalizePairs rest

end

/-- `convertToArray(obj)`: normalize each value and compact the numeric
keys into a dense ascending array. -/
def convertToArray (fs : List (String × JValue)) : List JValue :=
  convertToArrayCore (normalizePairs fs)

/-- The walk of `setNestedValue` below the skip guard.  At each
intermediate step: a falsy or non-object occupant (`undefined`, `null`,
any string) is replaced by a fresh `[]`/`{}` chosen by whether the next
key is numeric; a non-array object (or `File`) found where the next key
is numeric is replaced by `convertToArray` of its fields; an array is
entered as-is.  The final key is assigned the value. -/
def setNestedGo (value : JValue) : JValue → List String → JValue
  | cur, [] => cur
  | cur, [last] => containerSet cur last value
  | cur, key :: next :: rest =>
      let child : JValue :=
        match containerGet cur key with
        | some (.obj fs) =>
            if isNumericKey next then .arr ((convertToArray fs).map some) []
            else .obj fs
        | some (.vFile nm ps) =>
            if isNumericKey next then .arr ((convertToArray ps).map some) []
            else .vFile nm ps
        | some (.arr s p) => .arr s p
        | _ => if isNumericKey next then .arr [] [] else .obj []
      containerSet cur key (setNestedGo value child (next :: rest))

/-- `setNestedValue(obj, path, value)`: returns immediately on an empty
path or an empty-after-trim string value; otherwise walks the path,
materializing and converting containers, and assigns the value at the
final key. -/
def setNestedValue (o : JValue) (path : List String) (value : JValue) : JValue :=
  if path.isEmpty || isEmptyValue value then o
  else setNestedGo value o path

/-- One `(path, value)` entry of a field group
(`{ path: parts.slice(1), value }`). -/
structure Field where
  path : List String
  value : JValue

/-- `val !== null && ((typeof val === 'string' && val.trim() !== '') ||
typeof val !== 'string')`. -/
def step5ValOk : JValue → Bool
  | .vNull => false
  | .vStr s => jsTrim s ≠ ""
  | _ => true

/-- The per-element predicate of `processFieldGroups`' array filter: a
plain-object element survives iff some property value is non-null and is
either a non-string or a non-blank string; any other element survives iff
the slot is occupied. -/
def step5Keep : Option JValue → Bool
  | none => false
  | some (.obj fs) => fs.any (fun kv => step5ValOk kv.2)
  | some (.vFile _ ps) => ps.any (fun kv => step5ValOk kv.2)
  | some _ => true

/-- The value `processFieldGroups` stores for one group: decide whether
the group is an array structure (every entry has a non-empty path whose
first key is numeric), assemble a temporary object with
`setNestedValue`, normalize it, and — when an array structure actually
normalized to an array — filter out empty elements with the Step-5
predicate (`filter` builds a fresh array, so string properties are
dropped). -/
def processGroupValue (fields : List Field) : JValue :=
  let isArrayStructure := fields.all (fun f =>
    match f.path with
    | [] => false
    | k :: _ => isNumericKey k)
  let tempObj := fields.foldl (fun o f => setNestedValue o f.path f.value)
    (JValue.obj [])
  let normalized := normalizeStructure tempObj
  match normalized with
  | .arr slots props =>
      if isArrayStructure then .arr (slots.filter step5Keep) []
      else .arr slots props
  | other => other

/-- `processFieldGroups`: compute each group's value and assign it under
the group key; the group key is assigned in every branch of the source,
so it is always present in the result. -/
def processFieldGroups (groups : List (String × List Field)) :
    List (String × JValue) :=
  groups.foldl (fun result pr => jsRecSet result pr.1 (processGroupValue pr.2)) []

/-- A key is simple when it contains neither `.` nor `[`. -/
def isSimpleKey (k : String) : Bool :=
  !(k.toList.contains '.') && !(k.toList.contains '[')

/-- The separator characters of the path syntax. -/
def isSepChar (c : Char) : Bool :=
  c == '.' || c == '[' || c == ']'

/-- Split a character list at every separator, keeping empty pieces
(the behaviour of `split(/[.[\]]/)`). -/
def splitSepsAux : List Char → List Char → List String
  | [], acc => [String.mk acc.reverse]
  | c :: rest, acc =>
      if isSepChar c then String.mk acc.reverse :: splitSepsAux rest []
      else splitSepsAux rest (c :: acc)

/-- `key.split(/[.[\]]/).filter(Boolean)`. -/
def splitKey (k : String) : List String :=
  (splitSepsAux k.toList []).filter (fun f => f ≠ "")

/-- The errors the embedded code can signal: the two advertised accessor
errors, plus the `RangeError` an invalid `length` assignment raises and
the `TypeError` raised by calling `push` on a non-function/non-array. -/
inductive JsError : Type where
  | invalidPath : JsError
  | invalidTarget : JsError
  | rangeError : JsError
  | typeError : JsError
deriving DecidableEq, Repr

/-- The own property names of `Object.prototype`.  Reading
`fieldGroups[baseName]` on the plain object `fieldGroups` falls back to
the prototype chain, so for these base names the `!fieldGroups[baseName]`
guard sees a truthy inherited value, skips initialisation, and the
subsequent `.push` call throws a `TypeError`. -/
def protoProps : List String :=
  ["constructor", "hasOwnProperty", "isPrototypeOf", "propertyIsEnumerable",
   "toLocaleString", "toString", "valueOf", "__proto__",
   "__defineGetter__", "__defineSetter__", "__lookupGetter__",
   "__lookupSetter__"]

/-- Grouping loop of `processFormData`: split each path-bearing key,
group by the base name (`parts[0]`, which is the property key
`"undefined"` when the split produced nothing), pushing
`{path: parts.slice(1), value}`.  A base name that collides with an
`Object.prototype` property makes `fieldGroups[baseName].push` throw. -/
def groupEntriesAux :
    List (String × JValue) → List (String × List Field) →
      Except JsError (List (String × List Field))
  | [], groups => .ok groups
  | pr :: rest, groups =>
      let parts := splitKey pr.1
      let baseName := (parts.head?).getD "undefined"
      match jsRecLookup groups baseName with
      | some fields =>
          groupEntriesAux rest
            (jsRecSet groups baseName (fields ++ [⟨parts.drop 1, pr.2⟩]))
      | none =>
          if protoProps.contains baseName then .error .typeError
          else groupEntriesAux rest
            (jsRecSet groups baseName [⟨parts.drop 1, pr.2⟩])

def groupEntries (entries : List (String × JValue)) :
    Except JsError (List (String × List Field)) :=
  groupEntriesAux entries []

/-- JS assignment `result[key] = value` on a plain result object: an
assignment to the key `__proto__` goes to the inherited setter and never
creates an own property, so it is invisible in the output. -/
def jsResultAssign (fs : List (String × JValue)) (k : String) (v : JValue) :
    List (String × JValue) :=
  if k = "__proto__" then fs else jsRecSet fs k v

/-- `processFormData(data)` on its entry list: copy simple fields
verbatim, group the path-bearing entries, process the groups, and merge
with `{ ...result, ...processFieldGroups(fieldGroups) }`. -/
def processFormData (entries : List (String × JValue)) :
    Except JsError (List (String × JValue)) :=
  let simple := entries.foldl (fun r pr =>
    if isSimpleKey pr.1 then jsResultAssign r pr.1 pr.2 else r) []
  let nested := entries.filter (fun pr => !(isSimpleKey pr.1))
  (groupEntries nested).map (fun groups =>
    (processFieldGroups groups).foldl (fun r pr => jsRecSet r pr.1 pr.2) simple)

/-! ## data.ts — the path accessors -/

/-- `PathSegment = string | number`: a fragment that `parseInt` accepts
becomes the parsed number, any other fragment stays a string. -/
inductive Segment : Type where
  | name : String → Segment
  | idx : Int → Segment
deriving DecidableEq, Repr

/-- The property key a segment addresses (`o[seg]` coerces a number
segment to its decimal string). -/
def segKey : Segment → String
  | .name s => s
  | .idx n => toString n

/-- Two adjacent dots somewhere in the character list
(`path.includes('..')`). -/
def hasDoubleDot : List Char → Bool
  | '.' :: '.' :: _ => true
  | _ :: rest => hasDoubleDot rest
  | [] => false

def classifySeg (f : String) : Segment :=
  match jsParseInt f with
  | some n => .idx n
  | none => .name f

/-- `parsePath`: reject the empty path and any path containing `..`,
split on `.`, `[`, `]`, drop empty fragments, classify each fragment. -/
def parsePath (p : String) : Except JsError (List Segment) :=
  if p = "" then .error .invalidPath
  else if hasDoubleDot p.toList then .error .invalidPath
  else .ok ((splitKey p).map classifySeg)

/-- Fresh container for the next segment: `isNextNumeric ? [] : {}`. -/
def freshFor (next : Segment) : JValue :=
  match next with
  | .idx _ => .arr [] []
  | .name _ => .obj []

/-- Chain builder of `createNestedStructure`: every intermediate slot is
overwritten with a fresh container chosen by the next segment; with no
segments at all, `segments[segments.length - 1]` is `undefined` and the
value lands under the property key `"undefined"`. -/
def csAux (value : JValue) : JValue → List Segment → JValue
  | cur, [] => containerSet cur "undefined" value
  | cur, [last] => containerSet cur (segKey last) value
  | cur, s :: next :: rest =>
      containerSet cur (segKey s) (csAux value (freshFor next) (next :: rest))

/-- `createNestedStructure(segments, value)`: build fresh nesting from an
empty object. -/
def createNestedStructure (segs : List Segment) (value : JValue) : JValue :=
  csAux value (JValue.obj []) segs

/-- `createFromPath(path, value)`. -/
def createFromPath (p : String) (value : JValue) : Except JsError JValue :=
  (parsePath p).map (fun segs => createNestedStructure segs value)

/-- The traversal shared by `getValue` and `hasValue`: bail out (to
`undefined`) as soon as the current node is `null` or not an object,
otherwise keep reading properties. -/
def getWalk : Option JValue → List Segment → Option JValue
  | cur, [] => cur
  | cur, s :: rest =>
      match cur with
      | some c =>
          if objLike c then getWalk (containerGet c (segKey s)) rest
          else none
      | none => none

/-- `getValue(obj, path, defaultValue?)`: throws on a null root or an
invalid path; a bail-out mid-walk and a final `null`/`undefined` both
yield the default (`current ?? defaultValue`). -/
def getValue (root : Option JValue) (path : String) (dflt : Option JValue) :
    Except JsError (Option JValue) :=
  match root with
  | none => .error .invalidTarget
  | some r =>
      (parsePath path).map (fun segs =>
        match getWalk (some r) segs with
        | some .vNull => dflt
        | none => dflt
        | some v => some v)

/-- The getter-only accessor properties a fresh `File` inherits from
`File.prototype`/`Blob.prototype`: strict-mode assignment to any of them
throws a `TypeError` (the prototype methods, by contrast, are writable
data properties that an own assignment simply shadows). -/
def fileGetterProps : List String :=
  ["name", "size", "type", "lastModified", "webkitRelativePath"]

/-- Value of a whole-string decimal digit run (`ToNumber` requires the
entire literal to match, unlike `parseInt`'s prefix parse). -/
def allDigitsVal (cs : List Char) : Option Nat :=
  if cs ≠ [] ∧ cs.all Char.isDigit then
    some (cs.foldl (fun a c => a * 10 + digitVal c) 0)
  else none

/-- Value of a whole-string hexadecimal digit run. -/
def allHexVal (cs : List Char) : Option Nat :=
  if cs ≠ [] ∧ cs.all isHexDigitChar then
    some (cs.foldl (fun a c => a * 16 + hexDigitVal c) 0)
  else none

/-- The integral fragment of `ToNumber` on a string, as it feeds an array
`length` assignment: a whitespace-only string is `0`, an optional sign
followed by decimal digits or an unsigned `0x`/`0X` hexadecimal literal
is its value, and any other string is `none` (`NaN`, hence
`RangeError`).  The fractional, exponent and `Infinity` literal forms are
not modelled and map to `none`; for the fractional and `Infinity` forms
that agrees with the engine (a non-integral length raises), and no
theorem below quantifies over exponent-form strings. -/
def strToNumInt (s : String) : Option Int :=
  match ((s.toList.dropWhile isJsSpace).reverse.dropWhile isJsSpace).reverse with
  | [] => some 0
  | c0 :: rest =>
      if c0 == '-' then (allDigitsVal rest).map (fun n => -(n : Int))
      else if c0 == '+' then (allDigitsVal rest).map (fun n => (n : Int))
      else match rest with
        | c1 :: r2 =>
            if c0 == '0' && (c1 == 'x' || c1 == 'X') then
              (allHexVal r2).map (fun n => (n : Int))
            else (allDigitsVal (c0 :: rest)).map (fun n => (n : Int))
        | [] => (allDigitsVal [c0]).map (fun n => (n : Int))

/-- `ToNumber` on the values of this codebase, as it feeds an array
`length` assignment: `null` is `0`, a string uses the string grammar, an
array with no slots joins to the empty string (`0`), and plain objects
and `File`s stringify to `[object …]`, which is `NaN`; the join of a
non-empty array is not modelled (treated as `NaN`) and no theorem
depends on it. -/
def jsToNumInt : JValue → Option Int
  | .vNull => some 0
  | .vStr s => strToNumInt s
  | .arr [] _ => some 0
  | _ => none

/-- `ArraySetLength`: the assigned value must convert to an integer in
`[0, 2^32)`, otherwise the assignment throws a `RangeError`; a valid
assignment truncates, or extends with holes. -/
def arrSetLength (slots : List (Option JValue)) (v : JValue) :
    Except JsError (List (Option JValue)) :=
  match jsToNumInt v with
  | some i =>
      if 0 ≤ i ∧ i < 4294967296 then .ok (setLength slots i.toNat)
      else .error .rangeError
  | none => .error .rangeError

/-- Strict-mode property assignment `c[k] = v` with its error paths: an
assignment to `length` on an array runs `ArraySetLength` (`RangeError`
on an invalid length), an assignment to a getter-only `File` property
with no own shadow throws a `TypeError`, and every other assignment is
the total write `containerSet` (which already intercepts `__proto__`). -/
def containerSetE (c : JValue) (k : String) (v : JValue) :
    Except JsError JValue :=
  match c with
  | .vFile nm ps =>
      if (jsRecLookup ps k).isNone && fileGetterProps.contains k then
        .error .typeError
      else .ok (containerSet (.vFile nm ps) k v)
  | .arr slots props =>
      if k == "length" then
        (arrSetLength slots v).map (fun s2 => .arr s2 props)
      else .ok (containerSet (.arr slots props) k v)
  | other => .ok (containerSet other k v)

/-- Walk of `setValue` below the guards: a falsy or non-object occupant
of an intermediate slot is replaced by a fresh container chosen by the
next segment (there is no object-to-array conversion here); an existing
object occupant is entered and the mutation is written back through its
(own-present, hence non-throwing) key; a creation write and the final
assignment go through `containerSetE`, whose `RangeError`/`TypeError`
propagate.  With no segments the value lands under the key
`"undefined"`. -/
def svAux (value : JValue) : JValue → List Segment → Except JsError JValue
  | cur, [] => containerSetE cur "undefined" value
  | cur, [last] => containerSetE cur (segKey last) value
  | cur, s :: next :: rest =>
      match containerGet cur (segKey s) with
      | some c =>
          if objLike c then
            (svAux value c (next :: rest)).map
              (fun c2 => containerSet cur (segKey s) c2)
          else
            (svAux value (freshFor next) (next :: rest)).bind
              (fun c2 => containerSetE cur (segKey s) c2)
      | none =>
          (svAux value (freshFor next) (next :: rest)).bind
            (fun c2 => containerSetE cur (segKey s) c2)

/-- `setValue(obj, path, value)`: throws on a null root or an invalid
path, then materializes missing intermediates and overwrites the final
slot, returning the (mutated) root; an invalid `length` assignment or a
getter-only `File` property assignment along the way throws. -/
def setValue (root : Option JValue) (path : String) (value : JValue) :
    Except JsError JValue :=
  match root with
  | none => .error .invalidTarget
  | some r => (parsePath path).bind (fun segs => svAux value r segs)

mutual

/-- No `null` leaf and no empty-string leaf anywhere in the tree (array
holes and string properties are allowed; they are erased by the first
normalization pass). -/
def goodLeaves : JValue → Bool
  | .vStr s => s != ""
  | .vNull => false
  | .vFile _ ps => goodLeavesPairs ps
  | .obj fs => goodLeavesPairs fs
  | .arr slots _ => goodLeavesSlots slots

def goodLeavesPairs : List (String × JValue) → Bool
  | [] => true
  | kv :: rest => goodLeaves kv.2 && goodLeavesPairs rest

def goodLeavesSlots : List (Option JValue) → Bool
  | [] => true
  | none :: rest => goodLeavesSlots rest
  | some v :: rest => goodLeaves v && goodLeavesSlots rest

end

mutual

/-- A value tree made of plain objects, strings and `null` only — no
array and no `File` anywhere.  On such roots `setValue`'s assignments
never meet an array `length` or a `File` getter, so only the path and
null-root guards can throw. -/
def plainTree : JValue → Bool
  | .vStr _ => true
  | .vNull => true
  | .vFile _ _ => false
  | .obj fs => plainPairs fs
  | .arr _ _ => false

def plainPairs : List (String × JValue) → Bool
  | [] => true
  | kv :: rest => plainTree kv.2 && plainPairs rest

end

/-- Stable insertion into a list sorted by ascending first component. -/
def insIdxSorted (p : Nat × String × String) :
    List (Nat × String × String) → List (Nat × String × String)
  | [] => [p]
  | q :: qs => if q.1 < p.1 then q :: insIdxSorted p qs else p :: q :: qs

/-- Sort index/key/value triples by ascending index (stable). -/
def sortTriples (l : List (Nat × String × String)) :
    List (Nat × String × String) :=
  l.foldl (fun acc p => insIdxSorted p acc) []

/-- The object fields an index/key/value triple list denotes. -/
def pairsOf (l : List (Nat × String × String)) : List (String × JValue) :=
  l.map (fun x => (x.2.1, JValue.vStr x.2.2))

/-! ## Lemmas: path parsing -/

theorem jsRecLookup_replace_self {α : Type} {fs : List (String × α)}
    {k : String} (v : α) (h : (jsRecLookup fs k).isSome) :
    jsRecLookup (jsRecReplace fs k v) k = some v := by
  induction fs with
  | nil => simp [jsRecLookup] at h
  | cons kv rest ih =>
      obtain ⟨k', v'⟩ := kv
      by_cases hk : k' = k
      · subst hk
        simp [jsRecLookup, jsRecReplace]
      · simp only [jsRecLookup, jsRecReplace, if_neg hk] at h ⊢
        exact ih h

theorem jsRecLookup_insertIdx_self {α : Type} {fs : List (String × α)}
    {k : String} (n : Nat) (v : α) (h : jsRecLookup fs k = none) :
    jsRecLookup (jsRecInsertIdx fs n k v) k = some v := by
  induction fs with
  | nil => simp [jsRecInsertIdx, jsRecLookup]
  | cons kv rest ih =>
      obtain ⟨k', v'⟩ := kv
      by_cases hk : k' = k
      · simp [jsRecLookup, if_pos hk] at h
      · simp only [jsRecLookup, if_neg hk] at h
        simp only [jsRecInsertIdx]
        cases canonIdx k' with
        | none => simp [jsRecLookup, if_neg hk]
        | some m =>
            by_cases hmn : m < n
            · simp only [if_pos hmn, jsRecLookup, if_neg hk]
              exact ih h
            · simp [if_neg hmn, jsRecLookup, if_neg hk]

theorem jsRecLookup_append_self {α : Type} {fs : List (String × α)}
    {k : String} (v : α) (h : jsRecLookup fs k = none) :
    jsRecLookup (fs ++ [(k, v)]) k = some v := by
  induction fs with
  | nil => simp [jsRecLookup]
  | cons kv rest ih =>
      obtain ⟨k', v'⟩ := kv
      by_cases hk : k' = k
      · simp [jsRecLookup, if_pos hk] at h
      · simp only [jsRecLookup, if_neg hk] at h
        simp only [List.cons_append, jsRecLookup, if_neg hk]
        exact ih h

theorem jsRecLookup_jsRecSet_self {α : Type} (fs : List (String × α))
    (k : String) (v : α) : jsRecLookup (jsRecSet fs k v) k = some v := by
  unfold jsRecSet
  by_cases h : (jsRecLookup fs k).isSome
  · rw [if_pos h]
    exact jsRecLookup_replace_self v h
  · rw [if_neg h]
    have hnone : jsRecLookup fs k = none := by
      cases hx : jsRecLookup fs k with
      | none => rfl
      | some a => rw [hx] at h; simp at h
    cases canonIdx k with
    | some n => exact jsRecLookup_insertIdx_self n v hnone
    | none => exact jsRecLookup_append_self v hnone

theorem jsRecLookup_replace_ne {α : Type} {fs : List (String × α)}
    {k k' : String} (v : α) (h : k' ≠ k) :
    jsRecLookup (jsRecReplace fs k v) k' = jsRecLookup fs k' := by
  induction fs with
  | nil => rfl
  | cons kv rest ih =>
      obtain ⟨k0, v0⟩ := kv
      by_cases hk : k0 = k
      · subst hk
        simp [jsRecReplace, jsRecLookup, if_neg (fun hh : k0 = k' => h (hh.symm))]
      · simp only [jsRecReplace, if_neg hk, jsRecLookup]
        by_cases hk' : k0 = k'
        · simp [if_pos hk']
        · simp only [if_neg hk']
          exact ih

theorem jsRecLookup_insertIdx_ne {α : Type} {fs : List (String × α)}
    {k k' : String} (n : Nat) (v : α) (h : k' ≠ k) :
    jsRecLookup (jsRecInsertIdx fs n k v) k' = jsRecLookup fs k' := by
  induction fs with
  | nil => simp [jsRecInsertIdx, jsRecLookup, if_neg (fun hh : k = k' => h hh.symm)]
  | cons kv rest ih =>
      obtain ⟨k0, v0⟩ := kv
      simp only [jsRecInsertIdx]
      cases canonIdx k0 with
      | none => simp [jsRecLookup, if_neg (fun hh : k = k' => h hh.symm)]
      | some m =>
          by_cases hmn : m < n
          · simp only [if_pos hmn, jsRecLookup]
            by_cases hk0 : k0 = k'
            · simp [if_pos hk0]
            · simp only [if_neg hk0]
              exact ih
          · simp [if_neg hmn, jsRecLookup, if_neg (fun hh : k = k' => h hh.symm)]

theorem jsRecLookup_append_ne {α : Type} {fs : List (String × α)}
    {k k' : String} (v : α) (h : k' ≠ k) :
    jsRecLookup (fs ++ [(k, v)]) k' = jsRecLookup fs k' := by
  induction fs with
  | nil => simp [jsRecLookup, if_neg (fun hh : k = k' => h hh.symm)]
  | cons kv rest ih =>
      obtain ⟨k0, v0⟩ := kv
      simp only [List.cons_append, jsRecLookup]
      by_cases hk0 : k0 = k'
      · simp [if_pos hk0]
      · simp only [if_neg hk0]
        exact ih

theorem jsRecLookup_jsRecSet_ne {α : Type} (fs : List (String × α))
    {k k' : String} (v : α) (h : k' ≠ k) :
    jsRecLookup (jsRecSet fs k v) k' = jsRecLookup fs k' := by
  unfold jsRecSet
  by_cases hs : (jsRecLookup fs k).isSome
  · rw [if_pos hs]
    exact jsRecLookup_replace_ne v h
  · rw [if_neg hs]
    cases canonIdx k with
    | some n => exact jsRecLookup_insertIdx_ne n v h
    | none => exact jsRecLookup_append_ne v h

/-! ## Lemmas: container read-after-write -/

theorem writeSlot_read (slots : List (Option JValue)) (n : Nat) (v : JValue) :
    (writeSlot slots n v)[n]? = some (some v) := by
  unfold writeSlot
  by_cases h : n < slots.length
  · rw [if_pos h]
    exact List.getElem?_set_eq_of_lt _ h
  · rw [if_neg h]
    have hlen : slots.length ≤ n := Nat.le_of_not_lt h
    rw [List.append_assoc, List.getElem?_append_right hlen]
    have hrep : (List.replicate (n - slots.length) (none : Option JValue)).length
        = n - slots.length := List.length_replicate _ _
    rw [List.getElem?_append_right (by rw [hrep])]
    simp [hrep]

theorem objLike_containerSet (c : JValue) (k : String) (v : JValue)
    (h : objLike c = true) : objLike (containerSet c k v) = true := by
  cases c with
  | vStr s => simp [objLike] at h
  | vNull => simp [objLike] at h
  | vFile nm ps =>
      simp only [containerSet]
      split <;> rfl
  | obj fs =>
      simp only [containerSet]
      split <;> rfl
  | arr slots props =>
      simp only [containerSet]
      cases canonIdx k with
      | some n => rfl
      | none =>
          rcases Bool.eq_false_or_eq_true
              (k == "__proto__" && (jsRecLookup props k).isNone) with hb | hb <;>
            simp [hb, objLike]

theorem containerGet_containerSet_self (c : JValue) (k : String) (v : JValue)
    (h : objLike c = true) (hp : k ≠ "__proto__") :
    containerGet (containerSet c k v) k = some v := by
  have hb : (k == "__proto__") = false := beq_eq_false_iff_ne.mpr hp
  cases c with
  | vStr s => simp [objLike] at h
  | vNull => simp [objLike] at h
  | vFile nm ps =>
      simp only [containerSet, hb, Bool.false_and, Bool.false_eq_true,
        if_false, containerGet]
      exact jsRecLookup_jsRecSet_self ps k v
  | obj fs =>
      simp only [containerSet, hb, Bool.false_and, Bool.false_eq_true,
        if_false, containerGet]
      exact jsRecLookup_jsRecSet_self fs k v
  | arr slots props =>
      simp only [containerSet]
      cases hc : canonIdx k with
      | some n =>
          simp only [containerGet, hc]
          rw [writeSlot_read]
          rfl
      | none =>
          simp only [hc, hb, Bool.false_and, Bool.false_eq_true, if_false,
            containerGet]
          exact jsRecLookup_jsRecSet_self props k v

/-- An empty container (`{}` or `[]`) has no readable property. -/
theorem containerGet_empty (c : JValue) (k : String)
    (h : c = JValue.obj [] ∨ c = JValue.arr [] []) :
    containerGet c k = none := by
  rcases h with h | h <;> subst h
  · rfl
  · unfold containerGet
    cases canonIdx k <;> rfl

/-! ## Lemmas: decimal strings and the special property names -/

theorem digitChar_isDigit {n : Nat} (h : n < 10) :
    (Nat.digitChar n).isDigit = true := by
  interval_cases n <;> decide

theorem toDigitsCore_digit :
    ∀ (f n : Nat) (ds : List Char), (∀ c ∈ ds, c.isDigit = true) →
      ∀ c ∈ Nat.toDigitsCore 10 f n ds, c.isDigit = true := by
  intro f
  induction f with
  | zero => intro n ds hds c hc; exact hds c hc
  | succ f ih =>
      intro n ds hds c hc
      have hcons : ∀ c ∈ Nat.digitChar (n % 10) :: ds, c.isDigit = true := by
        intro c hc
        rcases List.mem_cons.mp hc with rfl | hc2
        · exact digitChar_isDigit (Nat.mod_lt n (by decide))
        · exact hds c hc2
      simp only [Nat.toDigitsCore] at hc
      split at hc
      · exact hcons c hc
      · exact ih _ _ hcons c hc

theorem natRepr_digit {m : Nat} : ∀ c ∈ (Nat.repr m).toList, c.isDigit = true := by
  intro c hc
  exact toDigitsCore_digit (m + 1) m [] (by intro c hc2; cases hc2) c hc

theorem natRepr_ne_length (m : Nat) : Nat.repr m ≠ "length" := by
  intro h
  have hl : 'l' ∈ (Nat.repr m).toList := by rw [h]; decide
  have := natRepr_digit 'l' hl
  exact absurd this (by decide)

/-- The property key a number segment addresses is its decimal string,
which is never the array `length` property. -/
theorem segKey_idx_ne_length (n : Int) : segKey (.idx n) ≠ "length" := by
  show toString n ≠ "length"
  cases n with
  | ofNat m => exact natRepr_ne_length m
  | negSucc m =>
      show "-" ++ Nat.repr (m + 1) ≠ "length"
      intro h
      have hd := congrArg String.toList h
      rw [show String.toList ("-" ++ Nat.repr (m + 1)) =
            '-' :: (Nat.repr (m + 1)).toList from rfl] at hd
      rw [show String.toList "length" = ['l', 'e', 'n', 'g', 't', 'h'] from rfl] at hd
      injection hd with h1 _
      exact absurd h1 (by decide)

theorem canonIdx_ne_proto {k : String} {n : Nat} (h : canonIdx k = some n) :
    k ≠ "__proto__" := by
  intro hk
  subst hk
  rw [show canonIdx "__proto__" = none from rfl] at h
  cases h

/-! ## Lemmas: the write primitives -/

theorem containerSet_obj_ne_proto (fs : List (String × JValue)) (k : String)
    (v : JValue) (h : k ≠ "__proto__") :
    containerSet (.obj fs) k v = .obj (jsRecSet fs k v) := by
  have hb : (k == "__proto__") = false := beq_eq_false_iff_ne.mpr h
  simp only [containerSet, hb, Bool.false_and, Bool.false_eq_true, if_false]

theorem containerSetE_obj (fs : List (String × JValue)) (k : String)
    (v : JValue) :
    containerSetE (.obj fs) k v = .ok (containerSet (.obj fs) k v) := rfl

theorem containerSetE_arr_ne (slots : List (Option JValue))
    (props : List (String × JValue)) (k : String) (v : JValue)
    (h : k ≠ "length") :
    containerSetE (.arr slots props) k v =
      .ok (containerSet (.arr slots props) k v) := by
  simp only [containerSetE]
  rw [if_neg (fun hb => h (beq_iff_eq.mp hb))]

/-! ## Lemmas: the accessor walk -/

theorem objLike_freshFor (next : Segment) : objLike (freshFor next) = true := by
  cases next <;> rfl

theorem getWalk_some_cons (c : JValue) (s : Segment) (rest : List Segment) :
    getWalk (some c) (s :: rest) =
      if objLike c = true then getWalk (containerGet c (segKey s)) rest
      else none := rfl

/-- Reading back along the segments of a freshly built chain reaches the
written value, provided no segment addresses `__proto__` (a `__proto__`
write is intercepted by the inherited accessor and stores nothing). -/
theorem getWalk_csAux (v : JValue) :
    ∀ (segs : List Segment) (c : JValue), segs ≠ [] →
      (∀ s ∈ segs, segKey s ≠ "__proto__") → objLike c = true →
      getWalk (some (csAux v c segs)) segs = some v := by
  intro segs
  induction segs with
  | nil => intro c h _ _; exact absurd rfl h
  | cons s rest ih =>
      intro c _ hnp hc
      have hps : segKey s ≠ "__proto__" := hnp s (List.mem_cons_self _ _)
      cases rest with
      | nil =>
          show getWalk (some (containerSet c (segKey s) v)) [s] = some v
          rw [getWalk_some_cons, if_pos (objLike_containerSet c (segKey s) v hc)]
          rw [containerGet_containerSet_self c (segKey s) v hc hps]
          rfl
      | cons next rest' =>
          show getWalk (some (containerSet c (segKey s)
            (csAux v (freshFor next) (next :: rest')))) (s :: next :: rest') =
            some v
          rw [getWalk_some_cons, if_pos (objLike_containerSet c (segKey s) _ hc)]
          rw [containerGet_containerSet_self c (segKey s) _ hc hps]
          exact ih (freshFor next) (by simp)
            (fun t ht => hnp t (List.mem_cons_of_mem _ ht))
            (objLike_freshFor next)

/-- From an empty container, `setValue`'s walk never throws and builds
exactly the chain `createNestedStructure` builds: every intermediate it
writes is fresh, arrays are only addressed by their numeric segment
(whose decimal key is never `length`), and a `__proto__` assignment is
intercepted identically on both sides. -/
theorem svAux_fresh_ok (v : JValue) :
    ∀ (segs : List Segment) (c : JValue),
      (c = JValue.obj [] ∨
        ∃ m, c = JValue.arr [] [] ∧ ∃ rest, segs = Segment.idx m :: rest) →
      svAux v c segs = .ok (csAux v c segs) := by
  intro segs
  induction segs with
  | nil =>
      intro c hc
      rcases hc with rfl | ⟨m, rfl, rest, hseg⟩
      · rfl
      · cases hseg
  | cons s rest ih =>
      intro c hc
      have hwrite : ∀ w : JValue, containerSetE c (segKey s) w =
          .ok (containerSet c (segKey s) w) := by
        intro w
        rcases hc with rfl | ⟨m, rfl, rest', hseg⟩
        · rfl
        · injection hseg with h1 _
          subst h1
          exact containerSetE_arr_ne _ _ _ _ (segKey_idx_ne_length m)
      cases rest with
      | nil => exact hwrite v
      | cons next rest' =>
          have hcg : containerGet c (segKey s) = none := by
            rcases hc with rfl | ⟨m, rfl, _, _⟩
            · rfl
            · exact containerGet_empty _ _ (Or.inr rfl)
          have hfresh : freshFor next = JValue.obj [] ∨
              ∃ m, freshFor next = JValue.arr [] [] ∧
                ∃ r2, next :: rest' = Segment.idx m :: r2 := by
            cases next with
            | name str => exact Or.inl rfl
            | idx m => exact Or.inr ⟨m, rfl, rest', rfl⟩
          show (match containerGet c (segKey s) with
            | some cc =>
                if objLike cc then
                  (svAux v cc (next :: rest')).map
                    (fun c2 => containerSet c (segKey s) c2)
                else
                  (svAux v (freshFor next) (next :: rest')).bind
                    (fun c2 => containerSetE c (segKey s) c2)
            | none =>
                (svAux v (freshFor next) (next :: rest')).bind
                  (fun c2 => containerSetE c (segKey s) c2)) =
            .ok (containerSet c (segKey s)
              (csAux v (freshFor next) (next :: rest')))
          rw [hcg, ih (freshFor next) hfresh]
          exact hwrite _

theorem jsRecSet_nil {α : Type} (k : String) (v : α) :
    jsRecSet [] k v = [(k, v)] := by
  unfold jsRecSet
  rw [if_neg (by simp [jsRecLookup])]
  cases canonIdx k with
  | some n => rfl
  | none => rfl

theorem jsRecLookup_jsRecSet_isSome {α : Type} (fs : List (String × α))
    (k k' : String) (v : α) (h : (jsRecLookup fs k').isSome = true) :
    (jsRecLookup (jsRecSet fs k v) k').isSome = true := by
  by_cases hk : k' = k
  · subst hk
    rw [jsRecLookup_jsRecSet_self]
    rfl
  · rw [jsRecLookup_jsRecSet_ne fs v hk]
    exact h

theorem processFieldGroups_foldl_present (groups : List (String × List Field)) :
    ∀ (init : List (String × JValue)) (name : String),
      (∃ fields, (name, fields) ∈ groups) ∨ (jsRecLookup init name).isSome = true →
      (jsRecLookup
        (groups.foldl (fun result pr => jsRecSet result pr.1 (processGroupValue pr.2)) init)
        name).isSome = true := by
  induction groups with
  | nil =>
      intro init name h
      rcases h with ⟨f, hf⟩ | h
      · simp at hf
      · exact h
  | cons g rest ih =>
      intro init name h
      simp only [List.foldl_cons]
      apply ih
      rcases h with ⟨fields, hf⟩ | h
      · rw [List.mem_cons] at hf
        rcases hf with hf | hf
        · right
          rw [← hf]
          rw [jsRecLookup_jsRecSet_self]
          rfl
        · exact Or.inl ⟨fields, hf⟩
      · exact Or.inr (jsRecLookup_jsRecSet_isSome _ _ _ _ h)

theorem setNestedValue_empty (o : JValue) (path : List String) (v : JValue)
    (h : isEmptyValue v = true) : setNestedValue o path v = o := by
  unfold setNestedValue
  rw [if_pos (by rw [h, Bool.or_true])]

theorem tempObj_of_all_empty (fields : List Field)
    (h : ∀ f ∈ fields, isEmptyValue f.value = true) :
    ∀ o : JValue,
      fields.foldl (fun o f => setNestedValue o f.path f.value) o = o := by
  induction fields with
  | nil => intro o; rfl
  | cons f rest ih =>
      intro o
      simp only [List.foldl_cons]
      rw [setNestedValue_empty o f.path f.value (h f (List.mem_cons_self f rest))]
      exact ih (fun g hg => h g (List.mem_cons_of_mem f hg)) o

theorem jsRecLookup_normalizePairs (fs : List (String × JValue)) (k : String) :
    jsRecLookup (normalizePairs fs) k =
      (jsRecLookup fs k).map normalizeStructure := by
  induction fs with
  | nil => rfl
  | cons kv rest ih =>
      obtain ⟨k0, v0⟩ := kv
      show jsRecLookup ((k0, normalizeStructure v0) :: normalizePairs rest) k = _
      unfold jsRecLookup
      by_cases hk : k0 = k
      · simp [if_pos hk]
      · simp only [if_neg hk]
        exact ih

theorem goodLeavesPairs_mem {fs : List (String × JValue)}
    {kv : String × JValue} (hall : goodLeavesPairs fs = true) (h : kv ∈ fs) :
    goodLeaves kv.2 = true := by
  induction fs with
  | nil => cases h
  | cons kv0 rest ih =>
      simp only [goodLeavesPairs, Bool.and_eq_true] at hall
      rcases List.mem_cons.mp h with rfl | h'
      · exact hall.1
      · exact ih hall.2 h'

theorem goodLeavesSlots_mem {slots : List (Option JValue)} {v : JValue}
    (hall : goodLeavesSlots slots = true) (h : some v ∈ slots) :
    goodLeaves v = true := by
  induction slots with
  | nil => cases h
  | cons s0 rest ih =>
      rcases List.mem_cons.mp h with heq | h'
      · rw [← heq] at hall
        simp only [goodLeavesSlots, Bool.and_eq_true] at hall
        exact hall.1
      · cases s0 with
        | none =>
            simp only [goodLeavesSlots] at hall
            exact ih hall h'
        | some w =>
            simp only [goodLeavesSlots, Bool.and_eq_true] at hall
            exact ih hall.2 h'

/-- A normalized tree with good leaves is truthy: `null` cannot be the
root of a good tree, and every other normalization result is truthy. -/
theorem jsTruthy_normalize {t : JValue} (hg : goodLeaves t = true) :
    jsTruthy (normalizeStructure t) = true := by
  cases t with
  | vStr s =>
      simp only [goodLeaves] at hg
      simp only [normalizeStructure, jsTruthy]
      exact hg
  | vNull => simp only [goodLeaves] at hg; exact Bool.noConfusion hg
  | vFile nm ps =>
      simp only [normalizeStructure]
      split <;> rfl
  | obj fs =>
      simp only [normalizeStructure]
      split <;> rfl
  | arr slots props => rfl

theorem normalizeSlots_mem {x : Option JValue} :
    ∀ {l : List (Option JValue)}, x ∈ normalizeSlots l →
      ∃ v, some v ∈ l ∧ x = some (normalizeStructure v) ∧
        jsTruthy (normalizeStructure v) = true := by
  intro l
  induction l with
  | nil => intro h; simp [normalizeSlots] at h
  | cons s0 rest ih =>
      intro h
      cases s0 with
      | none =>
          simp only [normalizeSlots] at h
          obtain ⟨v, hv, hx⟩ := ih h
          exact ⟨v, List.mem_cons_of_mem _ hv, hx⟩
      | some v =>
          simp only [normalizeSlots] at h
          by_cases ht : jsTruthy (normalizeStructure v) = true
          · rw [if_pos ht] at h
            rcases List.mem_cons.mp h with rfl | h'
            · exact ⟨v, List.mem_cons_self _ _, rfl, ht⟩
            · obtain ⟨w, hw, hx⟩ := ih h'
              exact ⟨w, List.mem_cons_of_mem _ hw, hx⟩
          · rw [if_neg ht] at h
            obtain ⟨w, hw, hx⟩ := ih h
            exact ⟨w, List.mem_cons_of_mem _ hw, hx⟩

theorem normalizeSlots_fixed :
    ∀ l : List (Option JValue),
      (∀ x ∈ l, ∃ v, x = some v ∧ jsTruthy v = true ∧
        normalizeStructure v = v) →
      normalizeSlots l = l := by
  intro l
  induction l with
  | nil => intro _; rfl
  | cons s0 rest ih =>
      intro h
      obtain ⟨v, hv, htr, hfix⟩ := h s0 (List.mem_cons_self s0 rest)
      subst hv
      simp only [normalizeSlots, hfix, if_pos htr]
      rw [ih (fun x hx => h x (List.mem_cons_of_mem _ hx))]

theorem normalizePairs_mem {k : String} {w : JValue} :
    ∀ {fs : List (String × JValue)}, (k, w) ∈ normalizePairs fs →
      ∃ v, (k, v) ∈ fs ∧ w = normalizeStructure v := by
  intro fs
  induction fs with
  | nil => intro h; cases h
  | cons kv rest ih =>
      obtain ⟨k0, v0⟩ := kv
      intro h
      rcases List.mem_cons.mp h with heq | h'
      · injection heq with h1 h2
        subst h1
        exact ⟨v0, List.mem_cons_self _ _, h2⟩
      · obtain ⟨v, hv, hw⟩ := ih h'
        exact ⟨v, List.mem_cons_of_mem _ hv, hw⟩

theorem normalizePairs_fixed :
    ∀ fs : List (String × JValue),
      (∀ kv ∈ fs, normalizeStructure kv.2 = kv.2) →
      normalizePairs fs = fs := by
  intro fs
  induction fs with
  | nil => intro _; rfl
  | cons kv rest ih =>
      intro h
      obtain ⟨k0, v0⟩ := kv
      show (k0, normalizeStructure v0) :: normalizePairs rest = (k0, v0) :: rest
      rw [h (k0, v0) (List.mem_cons_self _ _), ih (fun x hx => h x (List.mem_cons_of_mem _ hx))]

theorem normalizePairs_length (fs : List (String × JValue)) :
    (normalizePairs fs).length = fs.length := by
  induction fs with
  | nil => rfl
  | cons kv rest ih =>
      show (normalizePairs (kv :: rest)).length = _
      obtain ⟨k0, v0⟩ := kv
      show ((k0, normalizeStructure v0) :: normalizePairs rest).length = _
      simp [ih]

theorem normalizePairs_all_numeric (fs : List (String × JValue)) :
    (normalizePairs fs).all (fun kv => isNumericKey kv.1) =
      fs.all (fun kv => isNumericKey kv.1) := by
  induction fs with
  | nil => rfl
  | cons kv rest ih =>
      obtain ⟨k0, v0⟩ := kv
      show ((k0, normalizeStructure v0) :: normalizePairs rest).all _ = _
      simp only [List.all_cons, ih]

theorem jsRecLookup_mem {α : Type} {k : String} {v : α} :
    ∀ {fs : List (String × α)}, jsRecLookup fs k = some v → (k, v) ∈ fs := by
  intro fs
  induction fs with
  | nil => intro h; cases h
  | cons kv rest ih =>
      obtain ⟨k0, v0⟩ := kv
      intro h
      unfold jsRecLookup at h
      by_cases hk : k0 = k
      · rw [if_pos hk] at h
        injection h with h'
        subst hk h'
        exact List.mem_cons_self _ _
      · rw [if_neg hk] at h
        exact List.mem_cons_of_mem _ (ih h)

theorem writeSlot_mem {x : Option JValue} {slots : List (Option JValue)}
    {n : Nat} {v : JValue} (h : x ∈ writeSlot slots n v) :
    x ∈ slots ∨ x = some v ∨ x = none := by
  unfold writeSlot at h
  by_cases hn : n < slots.length
  · rw [if_pos hn] at h
    rcases List.mem_or_eq_of_mem_set h with h' | h'
    · exact Or.inl h'
    · exact Or.inr (Or.inl h')
  · rw [if_neg hn] at h
    rcases List.mem_append.mp h with h' | h'
    · rcases List.mem_append.mp h' with h'' | h''
      · exact Or.inl h''
      · exact Or.inr (Or.inr (List.eq_of_mem_replicate h''))
    · rcases List.mem_cons.mp h' with h'' | h''
      · exact Or.inr (Or.inl h'')
      · cases h''

theorem convertWriteStep_mem {fsN : List (String × JValue)}
    {a : List (Option JValue)} {k : String} {x : Option JValue}
    (hx : x ∈ convertWriteStep fsN a k)
    (ha : ∀ y ∈ a, y = none ∨ ∃ kv ∈ fsN, y = some kv.2) :
    x = none ∨ ∃ kv ∈ fsN, x = some kv.2 := by
  unfold convertWriteStep at hx
  split at hx
  · split at hx
    · split at hx
      · next v hl =>
          rcases writeSlot_mem hx with h' | h' | h'
          · exact ha x h'
          · exact Or.inr ⟨(k, v), jsRecLookup_mem hl, h'⟩
          · exact Or.inl h'
      · exact ha x hx
    · exact ha x hx
  · exact ha x hx

theorem convertFold_mem {fsN : List (String × JValue)} :
    ∀ (keys : List String) (a : List (Option JValue)),
      (∀ y ∈ a, y = none ∨ ∃ kv ∈ fsN, y = some kv.2) →
      ∀ x ∈ keys.foldl (convertWriteStep fsN) a,
        x = none ∨ ∃ kv ∈ fsN, x = some kv.2 := by
  intro keys
  induction keys with
  | nil => intro a ha x hx; exact ha x hx
  | cons k rest ih =>
      intro a ha x hx
      simp only [List.foldl_cons] at hx
      exact ih (convertWriteStep fsN a k)
        (fun y hy => convertWriteStep_mem hy ha) x hx

/-- Every element of `convertToArray`'s output is the normalization of
one of the object's values. -/
theorem convertToArrayCore_mem {fsN : List (String × JValue)} {e : JValue}
    (h : e ∈ convertToArrayCore fsN) : ∃ kv ∈ fsN, e = kv.2 := by
  unfold convertToArrayCore at h
  rw [List.mem_filterMap] at h
  obtain ⟨a, ha, hae⟩ := h
  cases a with
  | none => cases hae
  | some x =>
      injection hae with h'
      subst h'
      rcases convertFold_mem _ _ (fun y hy => absurd hy (List.not_mem_nil y))
          _ ha with h' | h'
      · cases h'
      · obtain ⟨kv, hkv, hkv2⟩ := h'
        injection hkv2 with h''
        exact ⟨kv, hkv, h''⟩

theorem sizeOf_lt_of_mem_pairs {fs : List (String × JValue)} {k : String}
    {v : JValue} (h : (k, v) ∈ fs) : sizeOf v < 1 + sizeOf fs := by
  have h1 := List.sizeOf_lt_of_mem h
  simp only [Prod.mk.sizeOf_spec] at h1
  omega

theorem sizeOf_lt_of_mem_slots {slots : List (Option JValue)} {v : JValue}
    (h : some v ∈ slots) : sizeOf v < 1 + sizeOf slots := by
  have h1 := List.sizeOf_lt_of_mem h
  simp only [Option.some.sizeOf_spec] at h1
  omega

/-- The heart of the amended claim C7: on trees with no `null` and no
empty-string leaves, normalization is idempotent. -/
theorem normalize_idem_aux :
    ∀ (fuel : Nat) (t : JValue), sizeOf t ≤ fuel → goodLeaves t = true →
      normalizeStructure (normalizeStructure t) = normalizeStructure t := by
  intro fuel
  induction fuel with
  | zero =>
      intro t ht _
      exfalso
      cases t <;> simp only [JValue.vStr.sizeOf_spec, JValue.vNull.sizeOf_spec,
        JValue.vFile.sizeOf_spec, JValue.obj.sizeOf_spec,
        JValue.arr.sizeOf_spec] at ht <;> omega
  | succ N ih =>
      intro t ht hg
      cases t with
      | vStr s => simp only [normalizeStructure]
      | vNull => simp only [normalizeStructure]
      | arr slots props =>
          simp only [normalizeStructure]
          simp only [JValue.arr.injEq, and_true]
          apply normalizeSlots_fixed
          intro x hx
          obtain ⟨v, hv, rfl, htr⟩ := normalizeSlots_mem hx
          have hsz : sizeOf v ≤ N := by
            have := sizeOf_lt_of_mem_slots hv
            simp only [JValue.arr.sizeOf_spec] at ht
            omega
          have hgv : goodLeaves v = true := by
            simp only [goodLeaves] at hg
            exact goodLeavesSlots_mem hg hv
          exact ⟨normalizeStructure v, rfl, htr, ih v hsz hgv⟩
      | obj fs =>
          have hsub : ∀ k v, (k, v) ∈ fs →
              sizeOf v ≤ N ∧ goodLeaves v = true := by
            intro k v hv
            constructor
            · have := sizeOf_lt_of_mem_pairs hv
              simp only [JValue.obj.sizeOf_spec] at ht
              omega
            · simp only [goodLeaves] at hg
              exact goodLeavesPairs_mem hg hv
          by_cases hnum : (fs.length != 0 &&
              fs.all (fun kv => isNumericKey kv.1)) = true
          · simp only [normalizeStructure, if_pos hnum]
            simp only [JValue.arr.injEq, and_true]
            apply normalizeSlots_fixed
            intro x hx
            rw [List.mem_map] at hx
            obtain ⟨e, he, rfl⟩ := hx
            obtain ⟨kw, hkw, rfl⟩ := convertToArrayCore_mem he
            obtain ⟨k2, w2⟩ := kw
            obtain ⟨v, hv, hw⟩ := normalizePairs_mem hkw
            obtain ⟨hsz, hgv⟩ := hsub k2 v hv
            refine ⟨w2, rfl, ?_, ?_⟩
            · rw [hw]
              exact jsTruthy_normalize hgv
            · rw [hw]
              exact ih v hsz hgv
          · have hnum' : ((normalizePairs fs).length != 0 &&
                (normalizePairs fs).all (fun kv => isNumericKey kv.1)) = false := by
              rw [normalizePairs_length, normalizePairs_all_numeric]
              exact Bool.not_eq_true _ ▸ (Bool.of_not_eq_true hnum)
            simp only [normalizeStructure, if_neg (fun hc => hnum hc)]
            rw [if_neg (fun hc => Bool.false_ne_true (hnum' ▸ hc))]
            simp only [JValue.obj.injEq]
            apply normalizePairs_fixed
            intro kv hkv
            obtain ⟨k2, w2⟩ := kv
            obtain ⟨v, hv, hw⟩ := normalizePairs_mem hkv
            obtain ⟨hsz, hgv⟩ := hsub k2 v hv
            show normalizeStructure w2 = w2
            rw [hw]
            exact ih v hsz hgv
      | vFile nm ps =>
          have hsub : ∀ k v, (k, v) ∈ ps →
              sizeOf v ≤ N ∧ goodLeaves v = true := by
            intro k v hv
            constructor
            · have := sizeOf_lt_of_mem_pairs hv
              simp only [JValue.vFile.sizeOf_spec] at ht
              omega
            · simp only [goodLeaves] at hg
              exact goodLeavesPairs_mem hg hv
          by_cases hnum : (ps.length != 0 &&
              ps.all (fun kv => isNumericKey kv.1)) = true
          · simp only [normalizeStructure, if_pos hnum]
            simp only [JValue.arr.injEq, and_true]
            apply normalizeSlots_fixed
            intro x hx
            rw [List.mem_map] at hx
            obtain ⟨e, he, rfl⟩ := hx
            obtain ⟨kw, hkw, rfl⟩ := convertToArrayCore_mem he
            obtain ⟨k2, w2⟩ := kw
            obtain ⟨v, hv, hw⟩ := normalizePairs_mem hkw
            obtain ⟨hsz, hgv⟩ := hsub k2 v hv
            refine ⟨w2, rfl, ?_, ?_⟩
            · rw [hw]
              exact jsTruthy_normalize hgv
            · rw [hw]
              exact ih v hsz hgv
          · have hnum' : ((normalizePairs ps).length != 0 &&
                (normalizePairs ps).all (fun kv => isNumericKey kv.1)) = false := by
              rw [normalizePairs_length, normalizePairs_all_numeric]
              exact Bool.not_eq_true _ ▸ (Bool.of_not_eq_true hnum)
            simp only [normalizeStructure, if_neg (fun hc => hnum hc)]
            rw [if_neg (fun hc => Bool.false_ne_true (hnum' ▸ hc))]
            simp only [JValue.obj.injEq]
            apply normalizePairs_fixed
            intro kv hkv
            obtain ⟨k2, w2⟩ := kv
            obtain ⟨v, hv, hw⟩ := normalizePairs_mem hkv
            obtain ⟨hsz, hgv⟩ := hsub k2 v hv
            show normalizeStructure w2 = w2
            rw [hw]
            exact ih v hsz hgv

/-! ## Lemmas: canonical index strings and parseInt -/

theorem digit_not_jsSpace {c : Char} (hd : c.isDigit = true) :
    isJsSpace c = false := by
  cases hsp : isJsSpace c
  · rfl
  · exfalso
    unfold isJsSpace at hsp
    simp only [Bool.or_eq_true, beq_iff_eq] at hsp
    rcases hsp with ((((rfl | rfl) | rfl) | rfl) | rfl) | rfl <;>
      exact absurd hd (by decide)

theorem digit_not_minus {c : Char} (hd : c.isDigit = true) : c ≠ '-' := by
  intro h
  subst h
  exact absurd hd (by decide)

theorem digit_not_plus {c : Char} (hd : c.isDigit = true) : c ≠ '+' := by
  intro h
  subst h
  exact absurd hd (by decide)

theorem decDigits_all_digits {cs : List Char} (hne : cs ≠ [])
    (hdig : ∀ c ∈ cs, c.isDigit = true) :
    decDigits cs = some (cs.foldl (fun a c => a * 10 + digitVal c) 0) := by
  unfold decDigits
  rw [List.takeWhile_eq_self_iff.mpr hdig]
  rw [if_neg (by simpa [List.isEmpty_iff] using hne)]

/-- A canonical array-index string is parsed by `parseInt` to its value:
no whitespace to skip, no sign, no hex prefix (a multi-digit canonical
string cannot start with `0`), and the digit run is the whole string. -/
theorem canonIdx_jsParseInt {s : String} {n : Nat} (h : canonIdx s = some n) :
    jsParseInt s = some (n : Int) := by
  simp only [canonIdx] at h
  split at h
  · exact Option.noConfusion h
  split at h
  case isFalse => exact Option.noConfusion h
  split at h
  case isFalse => exact Option.noConfusion h
  split at h
  case isFalse => exact Option.noConfusion h
  case isTrue hne hdig hlead hlt =>
    injection h with h'
    subst h'
    obtain ⟨c0, cs', hcs⟩ : ∃ c0 cs', s.toList = c0 :: cs' := by
      cases hx : s.toList with
      | nil => rw [hx] at hne; exact absurd rfl hne
      | cons a b => exact ⟨a, b, rfl⟩
    have hdigits : ∀ c ∈ s.toList, c.isDigit = true := List.all_eq_true.mp hdig
    have hc0 : c0.isDigit = true := hdigits c0 (by rw [hcs]; exact List.mem_cons_self _ _)
    unfold jsParseInt
    rw [hcs, List.dropWhile_cons, digit_not_jsSpace hc0]
    simp only [Bool.false_eq_true, if_false]
    rw [if_neg (by simp [beq_eq_false_iff_ne.mpr (digit_not_minus hc0)])]
    rw [if_neg (by simp [beq_eq_false_iff_ne.mpr (digit_not_plus hc0)])]
    have hdec : decDigits (c0 :: cs') =
        some ((c0 :: cs').foldl (fun a c => a * 10 + digitVal c) 0) :=
      decDigits_all_digits (by simp) (by rw [← hcs]; exact hdigits)
    have hun : parseUnsigned (c0 :: cs') =
        some ((c0 :: cs').foldl (fun a c => a * 10 + digitVal c) 0) := by
      unfold parseUnsigned
      cases cs' with
      | nil => exact hdec
      | cons c1 r =>
          have hc0ne : c0 ≠ '0' := by
            simp only [Bool.or_eq_true, beq_iff_eq, bne_iff_ne] at hlead
            rcases hlead with hs0 | hhead
            · exfalso
              have hl0 : s.toList = ['0'] := by rw [hs0]; rfl
              rw [hcs] at hl0
              injection hl0 with _ h2
              exact List.noConfusion h2
            · rw [hcs] at hhead
              intro hc
              exact hhead (by rw [hc]; rfl)
          show (if (c0 == '0' && (c1 == 'x' || c1 == 'X')) = true then hexDigits r
                else decDigits (c0 :: c1 :: r)) =
              some ((c0 :: c1 :: r).foldl (fun a c => a * 10 + digitVal c) 0)
          rw [if_neg (by simp [beq_eq_false_iff_ne.mpr hc0ne])]
          exact hdec
    rw [hun]
    rfl

theorem canonIdx_isNumericKey {s : String} {n : Nat}
    (h : canonIdx s = some n) : isNumericKey s = true := by
  unfold isNumericKey
  rw [canonIdx_jsParseInt h]
  rfl

theorem canonIdx_bound {s : String} {n : Nat} (h : canonIdx s = some n) :
    n < 4294967295 := by
  simp only [canonIdx] at h
  split at h
  · exact Option.noConfusion h
  split at h
  case isFalse => exact Option.noConfusion h
  split at h
  case isFalse => exact Option.noConfusion h
  split at h
  case isFalse => exact Option.noConfusion h
  case isTrue _ _ _ hlt =>
    injection h with h'
    rw [h'] at hlt
    exact hlt

/-! ## Lemmas: sorted insertion of canonical-index fields -/

theorem mem_insIdxSorted {y x : Nat × String × String} :
    ∀ {l : List (Nat × String × String)},
      y ∈ insIdxSorted x l ↔ y = x ∨ y ∈ l := by
  intro l
  induction l with
  | nil => simp [insIdxSorted]
  | cons q qs ih =>
      unfold insIdxSorted
      by_cases hq : q.1 < x.1
      · rw [if_pos hq]
        simp only [List.mem_cons, ih]
        tauto
      · rw [if_neg hq]
        simp only [List.mem_cons]

theorem mem_sortTriples {y : Nat × String × String}
    {l : List (Nat × String × String)} :
    y ∈ sortTriples l ↔ y ∈ l := by
  have haux : ∀ (l acc : List (Nat × String × String)),
      (y ∈ l.foldl (fun acc p => insIdxSorted p acc) acc ↔ y ∈ acc ∨ y ∈ l) := by
    intro l
    induction l with
    | nil => intro acc; simp
    | cons p ps ih =>
        intro acc
        simp only [List.foldl_cons, ih, mem_insIdxSorted, List.mem_cons]
        tauto
  have h := haux l []
  simp only [List.not_mem_nil, false_or] at h
  exact h

/-- Canonical keys with distinct indices are distinct strings, so a key
whose index avoids every index of the list is absent from the fields. -/
theorem jsRecLookup_pairsOf_none {l : List (Nat × String × String)}
    {k : String} {n : Nat} (hk : canonIdx k = some n)
    (hG : ∀ y ∈ l, canonIdx y.2.1 = some y.1)
    (hne : ∀ y ∈ l, y.1 ≠ n) :
    jsRecLookup (pairsOf l) k = none := by
  induction l with
  | nil => rfl
  | cons y ys ih =>
      show jsRecLookup ((y.2.1, JValue.vStr y.2.2) :: pairsOf ys) k = none
      unfold jsRecLookup
      rw [if_neg]
      · exact ih (fun z hz => hG z (List.mem_cons_of_mem _ hz))
          (fun z hz => hne z (List.mem_cons_of_mem _ hz))
      · intro heq
        have h1 := hG y (List.mem_cons_self _ _)
        rw [heq, hk] at h1
        injection h1 with h2
        exact hne y (List.mem_cons_self _ _) h2.symm

theorem pairsOf_nil : pairsOf [] = [] := rfl

theorem pairsOf_cons (x : Nat × String × String)
    (l : List (Nat × String × String)) :
    pairsOf (x :: l) = (x.2.1, JValue.vStr x.2.2) :: pairsOf l := rfl

theorem jsRecInsertIdx_pairsOf {x : Nat × String × String} :
    ∀ {l : List (Nat × String × String)},
      (∀ y ∈ l, canonIdx y.2.1 = some y.1) →
      jsRecInsertIdx (pairsOf l) x.1 x.2.1 (JValue.vStr x.2.2) =
        pairsOf (insIdxSorted x l) := by
  intro l
  induction l with
  | nil => intro _; rfl
  | cons y ys ih =>
      intro hG
      have hGy := hG y (List.mem_cons_self _ _)
      have ih' := ih (fun z hz => hG z (List.mem_cons_of_mem _ hz))
      simp only [pairsOf_cons]
      simp only [jsRecInsertIdx, hGy, insIdxSorted]
      by_cases hq : y.1 < x.1
      · simp only [if_pos hq, pairsOf_cons]
        rw [ih']
      · simp only [if_neg hq, pairsOf_cons]

theorem jsRecSet_pairsOf {x : Nat × String × String}
    {l : List (Nat × String × String)}
    (hx : canonIdx x.2.1 = some x.1)
    (hG : ∀ y ∈ l, canonIdx y.2.1 = some y.1)
    (hne : ∀ y ∈ l, y.1 ≠ x.1) :
    jsRecSet (pairsOf l) x.2.1 (JValue.vStr x.2.2) =
      pairsOf (insIdxSorted x l) := by
  unfold jsRecSet
  rw [if_neg (by rw [jsRecLookup_pairsOf_none hx hG hne]; simp)]
  rw [hx]
  exact jsRecInsertIdx_pairsOf hG

/-! ## Lemmas: the temporary object is index-sorted -/

theorem setNestedValue_single (o : JValue) (k : String) (v : JValue)
    (h : isEmptyValue v = false) :
    setNestedValue o [k] v = containerSet o k v := by
  unfold setNestedValue
  rw [if_neg (by simp [h])]
  rfl

theorem sortTriples_append_singleton (done : List (Nat × String × String))
    (x : Nat × String × String) :
    sortTriples (done ++ [x]) = insIdxSorted x (sortTriples done) := by
  unfold sortTriples
  rw [List.foldl_append]
  rfl

theorem tempObj_fold_sorted :
    ∀ (rest done : List (Nat × String × String)),
      (∀ y ∈ done ++ rest, canonIdx y.2.1 = some y.1) →
      ((done ++ rest).map Prod.fst).Nodup →
      (∀ y ∈ rest, isEmptyValue (JValue.vStr y.2.2) = false) →
      rest.foldl (fun o y => setNestedValue o [y.2.1] (JValue.vStr y.2.2))
        (JValue.obj (pairsOf (sortTriples done))) =
        JValue.obj (pairsOf (sortTriples (done ++ rest))) := by
  intro rest
  induction rest with
  | nil =>
      intro done _ _ _
      rw [List.append_nil]
      rfl
  | cons x rest' ih =>
      intro done hG hnd hev
      have hx : canonIdx x.2.1 = some x.1 := hG x (by simp)
      have hGdone : ∀ y ∈ sortTriples done, canonIdx y.2.1 = some y.1 := by
        intro y hy
        exact hG y (List.mem_append_left _ (mem_sortTriples.mp hy))
      have hnd' := hnd
      rw [List.map_append, List.nodup_append] at hnd'
      have hne : ∀ y ∈ sortTriples done, y.1 ≠ x.1 := by
        intro y hy
        have hy' := mem_sortTriples.mp hy
        intro hcontra
        exact hnd'.2.2 (List.mem_map_of_mem Prod.fst hy')
          (by rw [hcontra]; exact List.mem_map_of_mem Prod.fst (by simp))
      simp only [List.foldl_cons]
      rw [setNestedValue_single _ _ _ (hev x (List.mem_cons_self _ _))]
      rw [containerSet_obj_ne_proto _ _ _ (canonIdx_ne_proto hx)]
      show List.foldl _
        (JValue.obj (jsRecSet (pairsOf (sortTriples done)) x.2.1 (JValue.vStr x.2.2)))
        rest' = _
      rw [jsRecSet_pairsOf hx hGdone hne]
      rw [← sortTriples_append_singleton]
      have happ : done ++ x :: rest' = (done ++ [x]) ++ rest' := by simp
      rw [happ] at hG hnd ⊢
      exact ih (done ++ [x]) hG hnd
        (fun y hy => hev y (List.mem_cons_of_mem _ hy))

/-! ## Lemmas: strictly ascending triples and the identity sort -/

theorem insIdxSorted_pairwise {x : Nat × String × String} :
    ∀ {l : List (Nat × String × String)},
      l.Pairwise (fun a b => a.1 < b.1) → (∀ y ∈ l, y.1 ≠ x.1) →
      (insIdxSorted x l).Pairwise (fun a b => a.1 < b.1) := by
  intro l
  induction l with
  | nil => intro _ _; simp [insIdxSorted]
  | cons q qs ih =>
      intro hl hx
      rw [List.pairwise_cons] at hl
      unfold insIdxSorted
      by_cases hq : q.1 < x.1
      · rw [if_pos hq, List.pairwise_cons]
        constructor
        · intro z hz
          rcases mem_insIdxSorted.mp hz with rfl | hz'
          · exact hq
          · exact hl.1 z hz'
        · exact ih hl.2 (fun y hy => hx y (List.mem_cons_of_mem _ hy))
      · rw [if_neg hq, List.pairwise_cons]
        have hqx : x.1 < q.1 :=
          Nat.lt_of_le_of_ne (Nat.le_of_not_lt hq)
            (fun hcontra => hx q (List.mem_cons_self _ _) hcontra.symm)
        constructor
        · intro z hz
          rcases List.mem_cons.mp hz with rfl | hz'
          · exact hqx
          · exact Nat.lt_trans hqx (hl.1 z hz')
        · exact List.pairwise_cons.mpr ⟨hl.1, hl.2⟩

theorem sortTriples_fold_pairwise :
    ∀ (l acc : List (Nat × String × String)),
      acc.Pairwise (fun a b => a.1 < b.1) →
      (l.map Prod.fst).Nodup →
      (∀ y ∈ acc, ∀ x ∈ l, y.1 ≠ x.1) →
      (l.foldl (fun acc p => insIdxSorted p acc) acc).Pairwise
        (fun a b => a.1 < b.1) := by
  intro l
  induction l with
  | nil => intro acc hacc _ _; exact hacc
  | cons x l' ih =>
      intro acc hacc hnd hcross
      simp only [List.foldl_cons]
      have hndtail : (l'.map Prod.fst).Nodup := by
        rw [List.map_cons] at hnd
        exact hnd.of_cons
      have hxnotin : x.1 ∉ l'.map Prod.fst := by
        rw [List.map_cons] at hnd
        exact (List.nodup_cons.mp hnd).1
      apply ih
      · exact insIdxSorted_pairwise hacc
          (fun y hy => hcross y hy x (List.mem_cons_self _ _))
      · exact hndtail
      · intro y hy z hz
        rcases mem_insIdxSorted.mp hy with rfl | hy'
        · intro hcontra
          exact hxnotin (hcontra ▸ List.mem_map_of_mem Prod.fst hz)
        · exact hcross y hy' z (List.mem_cons_of_mem _ hz)

theorem sortTriples_pairwise {l : List (Nat × String × String)}
    (hnd : (l.map Prod.fst).Nodup) :
    (sortTriples l).Pairwise (fun a b => a.1 < b.1) :=
  sortTriples_fold_pairwise l [] (by simp) hnd (by simp)

theorem insertKeyStable_append {x : String} :
    ∀ {acc : List String}, (∀ e ∈ acc, jsCmpKeys e x ≤ 0) →
      insertKeyStable x acc = acc ++ [x] := by
  intro acc
  induction acc with
  | nil => intro _; rfl
  | cons e es ih =>
      intro h
      unfold insertKeyStable
      rw [if_pos (h e (List.mem_cons_self _ _))]
      rw [ih (fun z hz => h z (List.mem_cons_of_mem _ hz))]
      rfl

theorem sortKeys_fold_id :
    ∀ (ks acc : List String),
      (∀ e ∈ acc, ∀ k ∈ ks, jsCmpKeys e k ≤ 0) →
      ks.Pairwise (fun a b => jsCmpKeys a b ≤ 0) →
      ks.foldl (fun acc k => insertKeyStable k acc) acc = acc ++ ks := by
  intro ks
  induction ks with
  | nil => intro acc _ _; simp
  | cons k ks' ih =>
      intro acc hcross hpw
      rw [List.pairwise_cons] at hpw
      simp only [List.foldl_cons]
      rw [insertKeyStable_append
        (fun e he => hcross e he k (List.mem_cons_self _ _))]
      rw [ih (acc ++ [k]) ?hcross hpw.2]
      · simp
      case hcross =>
        intro e he k' hk'
        rcases List.mem_append.mp he with he' | he'
        · exact hcross e he' k' (List.mem_cons_of_mem _ hk')
        · rw [List.mem_singleton.mp he']
          exact hpw.1 k' hk'

theorem sortKeysByParseInt_id {ks : List String}
    (h : ks.Pairwise (fun a b => jsCmpKeys a b ≤ 0)) :
    sortKeysByParseInt ks = ks := by
  unfold sortKeysByParseInt
  rw [sortKeys_fold_id ks [] (by simp) h]
  rfl

theorem jsRecLookup_pairsOf_self :
    ∀ {l : List (Nat × String × String)} {x : Nat × String × String},
      x ∈ l → (∀ y ∈ l, canonIdx y.2.1 = some y.1) →
      l.Pairwise (fun a b => a.1 < b.1) →
      jsRecLookup (pairsOf l) x.2.1 = some (JValue.vStr x.2.2) := by
  intro l
  induction l with
  | nil => intro x hx; cases hx
  | cons y ys ih =>
      intro x hx hG hpw
      rw [List.pairwise_cons] at hpw
      rcases List.mem_cons.mp hx with rfl | hx'
      · simp [pairsOf_cons, jsRecLookup]
      · simp only [pairsOf_cons, jsRecLookup]
        rw [if_neg]
        · exact ih hx' (fun z hz => hG z (List.mem_cons_of_mem _ hz)) hpw.2
        · intro heq
          have h1 := hG y (List.mem_cons_self _ _)
          have h2 := hG x (List.mem_cons_of_mem _ hx')
          rw [heq, h2] at h1
          injection h1 with h3
          exact absurd h3.symm (Nat.ne_of_lt (hpw.1 x hx'))

/-! ## Lemmas: the dense ascending write-out -/

theorem filterMap_id_replicate_none (n : Nat) :
    (List.replicate n (none : Option JValue)).filterMap id = [] := by
  induction n with
  | zero => rfl
  | succ m ih => simp [List.replicate_succ, ih]

theorem convertFold_dense (fsN : List (String × JValue)) :
    ∀ (l : List (Nat × String × String)) (a : List (Option JValue)),
      (∀ x ∈ l, canonIdx x.2.1 = some x.1 ∧
        jsRecLookup fsN x.2.1 = some (JValue.vStr x.2.2)) →
      l.Pairwise (fun p q => p.1 < q.1) →
      (∀ x ∈ l, a.length ≤ x.1) →
      ((l.map (fun x => x.2.1)).foldl (convertWriteStep fsN) a).filterMap id =
        a.filterMap id ++ l.map (fun x => JValue.vStr x.2.2) := by
  intro l
  induction l with
  | nil => intro a _ _ _; simp
  | cons x l' ih =>
      intro a h hpw hlen
      rw [List.pairwise_cons] at hpw
      obtain ⟨hx, hlook⟩ := h x (List.mem_cons_self _ _)
      have hlenx := hlen x (List.mem_cons_self _ _)
      simp only [List.map_cons, List.foldl_cons]
      have hstep : convertWriteStep fsN a x.2.1 =
          a ++ List.replicate (x.1 - a.length) none ++
            [some (JValue.vStr x.2.2)] := by
        simp only [convertWriteStep, canonIdx_jsParseInt hx, hlook]
        rw [if_pos ⟨Int.natCast_nonneg x.1,
          by exact_mod_cast canonIdx_bound hx⟩]
        unfold writeSlot
        rw [Int.toNat_natCast]
        rw [if_neg (Nat.not_lt.mpr hlenx)]
      rw [hstep]
      have hlen' : ∀ z ∈ l',
          (a ++ List.replicate (x.1 - a.length) none ++
            [some (JValue.vStr x.2.2)]).length ≤ z.1 := by
        intro z hz
        have hl1 : (a ++ List.replicate (x.1 - a.length) none ++
            [some (JValue.vStr x.2.2)]).length =
            a.length + (x.1 - a.length) + 1 := by
          simp [Nat.add_assoc]
        rw [hl1]
        have hzgt := hpw.1 z hz
        omega
      rw [ih _ (fun z hz => h z (List.mem_cons_of_mem _ hz)) hpw.2 hlen']
      simp [List.filterMap_append, filterMap_id_replicate_none]

theorem pairsOf_keys (l : List (Nat × String × String)) :
    (pairsOf l).map Prod.fst = l.map (fun x => x.2.1) := by
  induction l with
  | nil => rfl
  | cons y ys ih => simp only [pairsOf_cons, List.map_cons, ih]

/-- On an index-sorted canonical field list, `convertToArray`'s core is
exactly the values in order: the sort is the identity and the writes land
at strictly increasing slots. -/
theorem convertToArrayCore_pairsOf {l : List (Nat × String × String)}
    (hG : ∀ y ∈ l, canonIdx y.2.1 = some y.1)
    (hpw : l.Pairwise (fun a b => a.1 < b.1)) :
    convertToArrayCore (pairsOf l) = l.map (fun x => JValue.vStr x.2.2) := by
  unfold convertToArrayCore
  rw [pairsOf_keys]
  have hcmp : (l.map (fun x => x.2.1)).Pairwise
      (fun a b => jsCmpKeys a b ≤ 0) := by
    rw [List.pairwise_map]
    apply hpw.imp_of_mem
    intro a b ha hb hab
    simp only [jsCmpKeys, canonIdx_jsParseInt (hG a ha),
      canonIdx_jsParseInt (hG b hb)]
    omega
  rw [sortKeysByParseInt_id hcmp]
  rw [convertFold_dense (pairsOf l) l []
    (fun x hx => ⟨hG x hx, jsRecLookup_pairsOf_self hx hG hpw⟩) hpw
    (by simp)]
  rfl

/-! ## Claim C10 — separator-only keys -/

/-- Claim C10: a key consisting only of separator characters splits to an
empty part list, so the group's base name is the property key
`"undefined"`, and `processFormData` returns an object mapping
`"undefined"` to an empty object without raising. -/
theorem claim_C10_separator_only_key :
    splitKey "[" = [] ∧ splitKey "." = [] ∧
    processFormData [("[", JValue.vStr "x")] =
      .ok [("undefined", JValue.obj [])] ∧
    processFormData [(".", JValue.vStr "x")] =
      .ok [("undefined", JValue.obj [])] :=
  ⟨rfl, rfl, rfl, rfl⟩

/-! ## Counterexamples for the corrected claims -/

/-- Claim C8 counterexample: the fragment `-1` carries a sign, so the
claim classifies it as a name, but `parsePath` classifies it as the index
`-1` (because `parseInt("-1")` is not `NaN`). -/
theorem claim_C8_counterexample :
    parsePath "a[-1]" = .ok [.name "a", .idx (-1)] ∧ (-1 : Int) < 0 :=
  ⟨rfl, by decide⟩

/-- Claim C3 counterexample: storing `null` and reading it back yields
`undefined`, not `null` — `getValue`'s final `current ?? defaultValue`
swallows a stored `null`. -/
theorem claim_C3_counterexample :
    (setValue (some (.obj [])) "a" JValue.vNull).bind
        (fun r => getValue (some r) "a" none) = .ok none ∧
    (Except.ok none : Except JsError (Option JValue)) ≠ .ok (some JValue.vNull) :=
  ⟨rfl, by simp⟩

/-- Claim C5 counterexample: a `null` raw value at the array position
`a.b[0]` is removed — `normalizeStructure`'s array branch filters with
`Boolean`, which drops `null` elements — so the build result is
`{a: {b: []}}` rather than `{a: {b: [null]}}`. -/
theorem claim_C5_counterexample :
    processFormData [("a.b[0]", JValue.vNull)] =
      .ok [("a", .obj [("b", .arr [] [])])] ∧
    (Except.ok [("a", JValue.obj [("b", .arr [] [])])] :
        Except JsError (List (String × JValue))) ≠
      .ok [("a", .obj [("b", .arr [some JValue.vNull] [])])] :=
  ⟨rfl, by simp⟩

/-- Claim C7 counterexample: the numeric-keyed object `{0: null}`
normalizes to `[null]` (`convertToArray` only filters `undefined`), but
normalizing again drops the `null` (`filter(Boolean)`), so
`normalizeStructure` is not idempotent on every tree. -/
theorem claim_C7_counterexample :
    normalizeStructure (normalizeStructure (JValue.obj [("0", JValue.vNull)])) ≠
      normalizeStructure (JValue.obj [("0", JValue.vNull)]) := by
  intro h
  rw [show normalizeStructure (JValue.obj [("0", JValue.vNull)]) =
        JValue.arr [some JValue.vNull] [] from rfl] at h
  rw [show normalizeStructure (JValue.arr [some JValue.vNull] []) =
        JValue.arr [] [] from rfl] at h
  exact absurd h (by simp)

/-- Claim C3 (amended): the set-then-get round trip holds for every path
that parses to at least one segment none of which addresses the
`__proto__` property, and every string or `File` value.  `null` values
are excluded because `getValue` coalesces a stored `null` into the
default, and `__proto__` segments because the assignment goes to the
inherited accessor and stores nothing own — the second conjunct shows
`setValue({}, "__proto__", "x")` returning the untouched `{}`. -/
theorem claim_C3_amended :
    (∀ (p : String) (v : JValue) (segs : List Segment),
      parsePath p = .ok segs → segs ≠ [] →
      (∀ s ∈ segs, segKey s ≠ "__proto__") →
      ((∃ s, v = .vStr s) ∨ (∃ nm ps, v = .vFile nm ps)) →
      (setValue (some (.obj [])) p v).bind (fun r => getValue (some r) p none) =
        .ok (some v)) ∧
    setValue (some (.obj [])) "__proto__" (.vStr "x") = .ok (.obj []) := by
  constructor
  · intro p v segs hp hne hnp hv
    have hset : setValue (some (.obj [])) p v =
        .ok (csAux v (JValue.obj []) segs) := by
      unfold setValue
      rw [hp]
      show svAux v (JValue.obj []) segs = _
      exact svAux_fresh_ok v segs (JValue.obj []) (Or.inl rfl)
    rw [hset]
    show getValue (some (csAux v (JValue.obj []) segs)) p none = .ok (some v)
    unfold getValue
    rw [hp]
    show Except.ok
      (match getWalk (some (csAux v (JValue.obj []) segs)) segs with
       | some .vNull => none
       | none => none
       | some v => some v) = .ok (some v)
    rw [getWalk_csAux v segs (JValue.obj []) hne hnp rfl]
    rcases hv with ⟨s, rfl⟩ | ⟨nm, ps, rfl⟩ <;> rfl
  · rfl

theorem claim_C3_amended_witness :
    (setValue (some (.obj [])) "user.addresses[0].street" (.vStr "123")).bind
      (fun r => getValue (some r) "user.addresses[0].street" none) =
      .ok (some (.vStr "123")) :=
  claim_C3_amended.1 "user.addresses[0].street" (.vStr "123")
    [.name "user", .name "addresses", .idx 0, .name "street"]
    rfl (by simp) (by decide) (Or.inl ⟨"123", rfl⟩)

/-- Claim C6: the group key is always assigned in `processFieldGroups`'
result, and when empty-value filtering has skipped every entry of a group
the key maps to an empty object (the empty temporary object is not
all-numeric-keyed, so it normalizes to `{}` and the non-array branch
emits it as is). -/
theorem claim_C6_group_key_present :
    (∀ (groups : List (String × List Field)) (name : String)
       (fields : List Field), (name, fields) ∈ groups →
       (jsRecLookup (processFieldGroups groups) name).isSome = true) ∧
    (∀ (name : String) (fields : List Field),
       (∀ f ∈ fields, isEmptyValue f.value = true) →
       processFieldGroups [(name, fields)] = [(name, .obj [])]) := by
  constructor
  · intro groups name fields hm
    exact processFieldGroups_foldl_present groups [] name (Or.inl ⟨fields, hm⟩)
  · intro name fields h
    show jsRecSet [] name (processGroupValue fields) = [(name, .obj [])]
    rw [jsRecSet_nil]
    unfold processGroupValue
    rw [tempObj_of_all_empty fields h (JValue.obj [])]
    rfl

theorem claim_C6_group_key_present_witness :
    (jsRecLookup (processFieldGroups [("a", [⟨["0"], JValue.vStr ""⟩])]) "a").isSome
      = true ∧
    processFieldGroups [("a", [⟨["0"], JValue.vStr ""⟩])] = [("a", .obj [])] :=
  ⟨claim_C6_group_key_present.1 [("a", [⟨["0"], JValue.vStr ""⟩])] "a"
      [⟨["0"], JValue.vStr ""⟩] (List.mem_singleton.mpr rfl),
   claim_C6_group_key_present.2 "a" [⟨["0"], JValue.vStr ""⟩]
      (by
        intro f hf
        rw [List.mem_singleton] at hf
        subst hf
        rfl)⟩

/-- Claim C8 (amended): a fragment is classified as an index exactly when
`parseInt` accepts it — so every index in a parsed path is the `parseInt`
value of one of the path's fragments, which may be negative (`"-1"`
parses to the index `-1`, not to a name). -/
theorem claim_C8_amended :
    (∀ (p : String) (segs : List Segment) (n : Int),
       parsePath p = .ok segs → Segment.idx n ∈ segs →
       ∃ f, f ∈ splitKey p ∧ jsParseInt f = some n) ∧
    (∀ f n, jsParseInt f = some n → classifySeg f = .idx n) ∧
    (∀ f, jsParseInt f = none → classifySeg f = .name f) := by
  refine ⟨?_, ?_, ?_⟩
  · intro p segs n hp hm
    unfold parsePath at hp
    split at hp
    · exact Except.noConfusion hp
    · split at hp
      · exact Except.noConfusion hp
      · injection hp with h'
        subst h'
        rw [List.mem_map] at hm
        obtain ⟨f, hf, hcl⟩ := hm
        refine ⟨f, hf, ?_⟩
        unfold classifySeg at hcl
        cases hj : jsParseInt f with
        | none => rw [hj] at hcl; exact Segment.noConfusion hcl
        | some m => rw [hj] at hcl; injection hcl with h2; rw [h2]
  · intro f n h
    unfold classifySeg
    rw [h]
  · intro f h
    unfold classifySeg
    rw [h]

theorem claim_C8_amended_witness :
    ∃ f, f ∈ splitKey "a[-1]" ∧ jsParseInt f = some (-1) :=
  claim_C8_amended.1 "a[-1]" [.name "a", .idx (-1)] (-1) rfl (by simp)

/-- Claim C1: a group whose entries all have a single canonical-index
rest segment and non-empty string values builds to the dense array of
the values in ascending index order (gaps closed); in particular the
sparse `items` example compacts to `["First", "Third", "Sixth"]`. -/
theorem claim_C1_sparse_indices_compact :
    (∀ (name : String) (ivs : List (Nat × String × String)),
       ivs ≠ [] →
       (∀ x ∈ ivs, canonIdx x.2.1 = some x.1 ∧
         isEmptyValue (JValue.vStr x.2.2) = false) →
       (ivs.map Prod.fst).Nodup →
       processFieldGroups
         [(name, ivs.map (fun x => (⟨[x.2.1], JValue.vStr x.2.2⟩ : Field)))] =
         [(name, .arr ((sortTriples ivs).map
             (fun x => some (JValue.vStr x.2.2))) [])]) ∧
    processFormData [("items[0]", .vStr "First"), ("items[2]", .vStr "Third"),
        ("items[5]", .vStr "Sixth")] =
      .ok [("items", .arr [some (.vStr "First"), some (.vStr "Third"),
        some (.vStr "Sixth")] [])] := by
  constructor
  · intro name ivs hne hgood hnd
    have hGsorted : ∀ y ∈ sortTriples ivs, canonIdx y.2.1 = some y.1 :=
      fun y hy => (hgood y (mem_sortTriples.mp hy)).1
    have hpw := sortTriples_pairwise hnd
    have hisArr : (ivs.map (fun x => (⟨[x.2.1], JValue.vStr x.2.2⟩ : Field))).all
        (fun f => match f.path with
          | [] => false
          | k :: _ => isNumericKey k) = true := by
      rw [List.all_eq_true]
      intro f hf
      obtain ⟨x, hx, rfl⟩ := List.mem_map.mp hf
      exact canonIdx_isNumericKey (hgood x hx).1
    have htemp : (ivs.map (fun x => (⟨[x.2.1], JValue.vStr x.2.2⟩ : Field))).foldl
        (fun o f => setNestedValue o f.path f.value) (JValue.obj []) =
        JValue.obj (pairsOf (sortTriples ivs)) := by
      rw [List.foldl_map]
      exact tempObj_fold_sorted ivs []
        (fun y hy => (hgood y (by simpa using hy)).1)
        (by simpa using hnd)
        (fun y hy => (hgood y hy).2)
    have hLne : pairsOf (sortTriples ivs) ≠ [] := by
      obtain ⟨x, hx⟩ := List.exists_mem_of_ne_nil ivs hne
      have hx' : x ∈ sortTriples ivs := mem_sortTriples.mpr hx
      intro hcontra
      have hmem : (x.2.1, JValue.vStr x.2.2) ∈ pairsOf (sortTriples ivs) :=
        List.mem_map_of_mem _ hx'
      rw [hcontra] at hmem
      cases hmem
    have hlenb : ((pairsOf (sortTriples ivs)).length != 0) = true := by
      cases hL : pairsOf (sortTriples ivs) with
      | nil => exact absurd hL hLne
      | cons a t => rfl
    have hall : (pairsOf (sortTriples ivs)).all
        (fun kv => isNumericKey kv.1) = true := by
      rw [List.all_eq_true]
      intro kv hkv
      unfold pairsOf at hkv
      obtain ⟨y, hy, rfl⟩ := List.mem_map.mp hkv
      exact canonIdx_isNumericKey (hGsorted y hy)
    have hfix : normalizePairs (pairsOf (sortTriples ivs)) =
        pairsOf (sortTriples ivs) := by
      apply normalizePairs_fixed
      intro kv hkv
      unfold pairsOf at hkv
      obtain ⟨y, hy, rfl⟩ := List.mem_map.mp hkv
      show normalizeStructure (JValue.vStr y.2.2) = JValue.vStr y.2.2
      simp only [normalizeStructure]
    have hnorm : normalizeStructure (JValue.obj (pairsOf (sortTriples ivs))) =
        .arr (((sortTriples ivs).map (fun x => JValue.vStr x.2.2)).map some)
          [] := by
      simp only [normalizeStructure]
      rw [if_pos (by rw [Bool.and_eq_true]; exact ⟨hlenb, hall⟩)]
      rw [hfix, convertToArrayCore_pairsOf hGsorted hpw]
    have hfilter : ((((sortTriples ivs).map
        (fun x => JValue.vStr x.2.2)).map some).filter step5Keep) =
        ((sortTriples ivs).map (fun x => JValue.vStr x.2.2)).map some := by
      rw [List.filter_eq_self]
      intro a ha
      obtain ⟨w, hw, rfl⟩ := List.mem_map.mp ha
      obtain ⟨y, hy, rfl⟩ := List.mem_map.mp hw
      rfl
    show jsRecSet [] name
      (processGroupValue (ivs.map (fun x => ⟨[x.2.1], JValue.vStr x.2.2⟩))) = _
    rw [jsRecSet_nil]
    simp only [processGroupValue, htemp, hnorm, hisArr, if_true, hfilter]
    rw [List.map_map]
    rfl
  · rfl

theorem claim_C1_sparse_indices_compact_witness :
    processFieldGroups
      [("items", [⟨["0"], JValue.vStr "First"⟩, ⟨["2"], JValue.vStr "Third"⟩,
        ⟨["5"], JValue.vStr "Sixth"⟩])] =
      [("items", .arr [some (.vStr "First"), some (.vStr "Third"),
        some (.vStr "Sixth")] [])] :=
  claim_C1_sparse_indices_compact.1 "items"
    [(0, "0", "First"), (2, "2", "Third"), (5, "5", "Sixth")]
    (by simp)
    (by
      intro x hx
      simp only [List.mem_cons, List.not_mem_nil, or_false] at hx
      rcases hx with rfl | rfl | rfl <;> exact ⟨rfl, rfl⟩)
    (by decide)

/-- Claim C7 (amended): `normalizeStructure` is idempotent on every tree
with no `null` leaf and no empty-string leaf.  (The counterexample shows
the restriction is needed: `convertToArray` keeps a `null` that the array
branch's `filter(Boolean)` then drops on the second pass.) -/
theorem claim_C7_amended (t : JValue) (hg : goodLeaves t = true) :
    normalizeStructure (normalizeStructure t) = normalizeStructure t :=
  normalize_idem_aux (sizeOf t) t (Nat.le_refl _) hg

theorem claim_C7_amended_witness :
    normalizeStructure (normalizeStructure
        (JValue.obj [("b", .arr [some (.vStr "x"), none] []),
                     ("0", .obj [("1", .vFile "f" []), ("03", .vStr " ")])])) =
      normalizeStructure
        (JValue.obj [("b", .arr [some (.vStr "x"), none] []),
                     ("0", .obj [("1", .vFile "f" []), ("03", .vStr " ")])]) :=
  claim_C7_amended _ (by rfl)

/-- Claim C5 (amended): non-string values always pass the empty-value
filter and are inserted by Step 3, and a `null` survives Step 4 at object
positions and numeric-key conversion as well as Step 5's element filter;
but Step 4's array branch drops `null` elements (`filter(Boolean)`), and
a `File` reaching Step 4 is rebuilt from its own enumerable properties
into an empty object. -/
theorem claim_C5_amended :
    (∀ v : JValue, (∀ s, v ≠ .vStr s) → isEmptyValue v = false) ∧
    (∀ (o : JValue) (k : String) (v : JValue), (∀ s, v ≠ .vStr s) →
       setNestedValue o [k] v = containerSet o k v) ∧
    (∀ (fs : List (String × JValue)) (k : String),
       (fs.length != 0 && fs.all (fun kv => isNumericKey kv.1)) = false →
       jsRecLookup fs k = some JValue.vNull →
       normalizeStructure (.obj fs) = .obj (normalizePairs fs) ∧
       jsRecLookup (normalizePairs fs) k = some JValue.vNull) ∧
    step5Keep (some JValue.vNull) = true ∧
    processFormData [("a[0]", JValue.vNull)] =
      .ok [("a", .arr [some JValue.vNull] [])] ∧
    (∀ nm, normalizeStructure (.vFile nm []) = .obj []) ∧
    normalizeStructure (.arr [some JValue.vNull] []) = .arr [] [] := by
  refine ⟨?_, ?_, ?_, rfl, rfl, fun nm => rfl, rfl⟩
  · intro v hv
    cases v with
    | vStr s => exact absurd rfl (hv s)
    | vNull => rfl
    | vFile nm ps => rfl
    | obj fs => rfl
    | arr slots props => rfl
  · intro o k v hv
    have hempty : isEmptyValue v = false := by
      cases v with
      | vStr s => exact absurd rfl (hv s)
      | vNull => rfl
      | vFile nm ps => rfl
      | obj fs => rfl
      | arr slots props => rfl
    unfold setNestedValue
    rw [if_neg (by simp [hempty])]
    rfl
  · intro fs k hnum hk
    constructor
    · simp only [normalizeStructure]
      rw [if_neg (fun hc => Bool.false_ne_true (hnum ▸ hc))]
    · rw [jsRecLookup_normalizePairs, hk]
      rfl

theorem claim_C5_amended_witness :
    isEmptyValue JValue.vNull = false ∧
    setNestedValue (JValue.obj []) ["x"] JValue.vNull =
      containerSet (JValue.obj []) "x" JValue.vNull :=
  ⟨claim_C5_amended.1 JValue.vNull (fun _ h => JValue.noConfusion h),
   claim_C5_amended.2.1 (JValue.obj []) "x" JValue.vNull
     (fun _ h => JValue.noConfusion h)⟩

end FormDataParser
